import Mathlib

/-!
Formal model of the ForgeDB storage engine: a B+ tree with slotted leaf
pages over a paged file, plus a Bloom filter and a pager with a free list
and an LRU buffer pool.  Every definition below is a shallow embedding of
the corresponding C++ function of the repository (file and function are
named at each definition); machine integers become Nat with explicit
truncation where the C++ code can overflow, byte buffers become lists of
Nat or functions from Nat to Nat, and strings become the list of bytes
before the first NUL byte (strlen semantics).
-/

namespace ForgeDB

/-! ## Little-endian helpers shared by the codec, the pager and the CRC model -/

/-- Little-endian image of a 16-bit store, as in memcpy of a uint16. -/
def le16 (v : Nat) : List Nat := [v % 256, v / 256 % 256]

/-- Little-endian image of a 32-bit store, as in memcpy of a uint32. -/
def le32 (v : Nat) : List Nat :=
  [v % 256, v / 256 % 256, v / 65536 % 256, v / 16777216 % 256]

/-- Read a uint16 from a byte list at an offset (little endian). -/
def rdLE16L (src : List Nat) (off : Nat) : Nat :=
  src.getD off 0 + 256 * src.getD (off + 1) 0

/-- Read a uint32 from a byte list at an offset (little endian). -/
def rdLE32L (src : List Nat) (off : Nat) : Nat :=
  src.getD off 0 + 256 * src.getD (off + 1) 0 + 65536 * src.getD (off + 2) 0 +
    16777216 * src.getD (off + 3) 0

/-! ## Row codec, from src/src/utils.cpp and the Row struct of include/common.h.
The C++ Row holds id (uint32), username (char array of 32) and email
(char array of 255); serialize uses strlen, so the logical content is the
byte list before the first NUL.  We model a row as that content. -/

structure Row where
  id : Nat
  username : List Nat
  email : List Nat
deriving DecidableEq, Repr

/-- serialize_row of src/src/utils.cpp: [id:4][ulen:2][username][elen:2][email]. -/
def serialize_row (row : Row) : List Nat :=
  le32 row.id ++ le16 row.username.length ++ row.username ++
    le16 row.email.length ++ row.email

/-- deserialize_row of src/src/utils.cpp. -/
def deserialize_row (src : List Nat) : Row :=
  let id := rdLE32L src 0
  let ulen := rdLE16L src 4
  let username := (src.drop 6).take ulen
  let elen := rdLE16L src (6 + ulen)
  let email := (src.drop (8 + ulen)).take elen
  { id := id, username := username, email := email }

/-- serialized_row_size of src/src/utils.cpp. -/
def serialized_row_size (row : Row) : Nat :=
  4 + 2 + row.username.length + 2 + row.email.length

theorem le32_length (v : Nat) : (le32 v).length = 4 := rfl

theorem le16_length (v : Nat) : (le16 v).length = 2 := rfl

theorem rdLE32L_le32_append (v : Nat) (rest : List Nat) (hv : v < 4294967296) :
    rdLE32L (le32 v ++ rest) 0 = v := by
  simp only [rdLE32L, le32, List.cons_append, List.getD, List.get?_eq_getElem?,
    List.getElem?_cons_zero, List.getElem?_cons_succ, Option.getD_some]
  omega

theorem serialize_row_split (r : Row) :
    serialize_row r =
      (le32 r.id ++ le16 r.username.length) ++
        (r.username ++ (le16 r.email.length ++ r.email)) := by
  simp [serialize_row]

theorem deserialize_serialize_id (r : Row) (hid : r.id < 4294967296) :
    rdLE32L (serialize_row r) 0 = r.id := by
  have h : serialize_row r = le32 r.id ++
      (le16 r.username.length ++ r.username ++ le16 r.email.length ++ r.email) := by
    simp [serialize_row]
  rw [h, rdLE32L_le32_append _ _ hid]

theorem deserialize_serialize_ulen (r : Row) (hu : r.username.length ≤ 31) :
    rdLE16L (serialize_row r) 4 = r.username.length := by
  have h : serialize_row r = le32 r.id ++ le16 r.username.length ++
      (r.username ++ le16 r.email.length ++ r.email) := by
    simp [serialize_row]
  rw [h]
  simp only [rdLE16L, le32, le16, List.cons_append, List.nil_append, List.getD,
    List.get?_eq_getElem?, List.getElem?_cons_zero, List.getElem?_cons_succ,
    Option.getD_some]
  omega

theorem getD_append_add (A B : List Nat) (j : Nat) :
    (A ++ B).getD (A.length + j) 0 = B.getD j 0 := by
  induction A with
  | nil => simp [List.getD]
  | cons a as ih =>
      simp only [List.cons_append, List.length_cons]
      rw [show as.length + 1 + j = (as.length + j) + 1 from by omega]
      simpa using ih

theorem drop_six_serialize (r : Row) :
    (serialize_row r).drop 6 = r.username ++ (le16 r.email.length ++ r.email) := by
  rw [serialize_row_split]
  have h6 : (le32 r.id ++ le16 r.username.length).length = 6 := by
    simp [le32, le16]
  rw [← h6, List.drop_left]

/-- The claim C4 property: round trip of the row codec plus the size law. -/
theorem row_roundtrip (r : Row)
    (hid : r.id < 4294967296)
    (hu : r.username.length ≤ 31) (he : r.email.length ≤ 254) :
    deserialize_row (serialize_row r) = r ∧
    serialized_row_size r = (serialize_row r).length ∧
    8 ≤ serialized_row_size r ∧ serialized_row_size r ≤ 293 := by
  refine ⟨?_, ?_, ?_, ?_⟩
  · have hulen := deserialize_serialize_ulen r hu
    have hid' := deserialize_serialize_id r hid
    have hdrop := drop_six_serialize r
    have huser : ((serialize_row r).drop 6).take r.username.length = r.username := by
      rw [hdrop]
      exact List.take_left r.username _
    have helen : rdLE16L (serialize_row r) (6 + r.username.length) =
        r.email.length := by
      have hpre : serialize_row r =
          (le32 r.id ++ le16 r.username.length ++ r.username) ++
            (le16 r.email.length ++ r.email) := by
        simp [serialize_row]
      have hlen : (le32 r.id ++ le16 r.username.length ++ r.username).length =
          6 + r.username.length := by
        simp [le32, le16]; omega
      have hg : ∀ j : Nat,
          (serialize_row r).getD (6 + r.username.length + j) 0 =
            (le16 r.email.length ++ r.email).getD j 0 := by
        intro j
        rw [hpre, ← hlen]
        exact getD_append_add _ _ j
      unfold rdLE16L
      rw [show 6 + r.username.length = 6 + r.username.length + 0 from rfl] at hg ⊢
      rw [hg 0]
      rw [show 6 + r.username.length + 0 + 1 = 6 + r.username.length + 1 from by omega]
      rw [hg 1]
      simp only [le16, List.cons_append, List.getD, List.get?_eq_getElem?,
        List.getElem?_cons_zero, List.getElem?_cons_succ, Option.getD_some]
      omega
    have hemail : ((serialize_row r).drop (8 + r.username.length)).take
        r.email.length = r.email := by
      have hpre : serialize_row r =
          (le32 r.id ++ le16 r.username.length ++ r.username ++
            le16 r.email.length) ++ r.email := by
        simp [serialize_row]
      have hlen : (le32 r.id ++ le16 r.username.length ++ r.username ++
          le16 r.email.length).length = 8 + r.username.length := by
        simp [le32, le16]; omega
      rw [hpre, ← hlen, List.drop_left, List.take_length]
    show deserialize_row (serialize_row r) = r
    unfold deserialize_row
    simp only [hulen, hid', helen]
    rw [huser, hemail]
  · simp [serialized_row_size, serialize_row, le32, le16]
    omega
  · simp [serialized_row_size]; omega
  · simp [serialized_row_size]; omega

/-- Witness for row_roundtrip at a concrete row. -/
theorem row_roundtrip_witness :
    deserialize_row (serialize_row ⟨7, [97], [98, 99]⟩) = ⟨7, [97], [98, 99]⟩ :=
  (row_roundtrip ⟨7, [97], [98, 99]⟩ (by decide) (by decide) (by decide)).1

/-! ## Bloom filter, from src/src/bloom.cpp and include/bloom.h.
The bit array of 32608 bits lives on the header page; the byte and bit
position determined by set_bit form a bijection with the bit index, so we
model the array as a function from bit index to Bool.  The three hash
functions are translated from src/src/bloom.cpp; the key is a uint32, so
the 64-bit products never overflow and the Nat products are exact. -/

def BLOOM_BITS : Nat := 32608

/-- hash1 of src/src/bloom.cpp. -/
def hash1 (k : Nat) : Nat := k * 2654435761 % BLOOM_BITS

/-- hash2 of src/src/bloom.cpp. -/
def hash2 (k : Nat) : Nat := k * 0x85ebca6b % BLOOM_BITS

/-- hash3 of src/src/bloom.cpp. -/
def hash3 (k : Nat) : Nat := (k ^^^ k / 65536) * 0xcc9e2d51 % BLOOM_BITS

/-- set_bit of include/bloom.h. -/
def set_bit (bits : Nat → Bool) (pos : Nat) : Nat → Bool :=
  fun p => if p = pos then true else bits p

/-- BloomFilter::add of src/src/bloom.cpp. -/
def bloom_add (bits : Nat → Bool) (key : Nat) : Nat → Bool :=
  set_bit (set_bit (set_bit bits (hash1 key)) (hash2 key)) (hash3 key)

/-- BloomFilter::possibly_contains of src/src/bloom.cpp. -/
def possibly_contains (bits : Nat → Bool) (key : Nat) : Bool :=
  bits (hash1 key) && bits (hash2 key) && bits (hash3 key)

/-- BloomFilter::clear of src/src/bloom.cpp (memset of the region to 0). -/
def bloom_clear : Nat → Bool := fun _ => false

/-- The operations the engine performs on the filter bits. -/
inductive BloomOp where
  | add (key : Nat)
  | clear
deriving DecidableEq

/-- Apply one operation to the bit array. -/
def bloomApply (bits : Nat → Bool) : BloomOp → (Nat → Bool)
  | .add k => bloom_add bits k
  | .clear => bloom_clear

/-- Apply a sequence of operations, oldest first. -/
def bloomRun (bits : Nat → Bool) (ops : List BloomOp) : Nat → Bool :=
  ops.foldl bloomApply bits

theorem set_bit_mono (bits : Nat → Bool) (pos p : Nat) (h : bits p = true) :
    set_bit bits pos p = true := by
  unfold set_bit
  by_cases hc : p = pos <;> simp [hc, h]

theorem bloom_add_mono (bits : Nat → Bool) (k p : Nat) (h : bits p = true) :
    bloom_add bits k p = true := by
  unfold bloom_add
  exact set_bit_mono _ _ _ (set_bit_mono _ _ _ (set_bit_mono _ _ _ h))

theorem bloomRun_mono (ops : List BloomOp) (bits : Nat → Bool) (p : Nat)
    (hnc : BloomOp.clear ∉ ops) (h : bits p = true) :
    bloomRun bits ops p = true := by
  induction ops generalizing bits with
  | nil => exact h
  | cons op rest ih =>
      rcases op with k | _
      · exact ih _ (fun hm => hnc (List.mem_cons_of_mem _ hm))
          (bloom_add_mono _ _ _ h)
      · exact absurd (List.mem_cons_self _ _) hnc

theorem bloom_add_hits (bits : Nat → Bool) (k : Nat) :
    possibly_contains (bloom_add bits k) k = true := by
  unfold possibly_contains bloom_add set_bit
  by_cases h12 : hash1 k = hash2 k <;> by_cases h13 : hash1 k = hash3 k <;>
    by_cases h23 : hash2 k = hash3 k <;> simp [*]

/-- The claim C7 property: once a key is added and no clear follows, the
filter reports the key as possibly present, whatever else is added; hence
a negative answer proves the key was never added. -/
theorem bloom_no_false_negative (bits : Nat → Bool) (k : Nat)
    (before after : List BloomOp) (hnc : BloomOp.clear ∉ after) :
    possibly_contains (bloomRun bits (before ++ .add k :: after)) k = true := by
  have hrun : bloomRun bits (before ++ .add k :: after) =
      bloomRun (bloom_add (bloomRun bits before) k) after := by
    unfold bloomRun
    rw [List.foldl_append]
    rfl
  rw [hrun]
  have h1 : bloom_add (bloomRun bits before) k (hash1 k) = true := by
    have := bloom_add_hits (bloomRun bits before) k
    unfold possibly_contains at this
    simp only [Bool.and_eq_true] at this
    exact this.1.1
  have h2 : bloom_add (bloomRun bits before) k (hash2 k) = true := by
    have := bloom_add_hits (bloomRun bits before) k
    unfold possibly_contains at this
    simp only [Bool.and_eq_true] at this
    exact this.1.2
  have h3 : bloom_add (bloomRun bits before) k (hash3 k) = true := by
    have := bloom_add_hits (bloomRun bits before) k
    unfold possibly_contains at this
    simp only [Bool.and_eq_true] at this
    exact this.2
  unfold possibly_contains
  rw [bloomRun_mono _ _ _ hnc h1, bloomRun_mono _ _ _ hnc h2,
    bloomRun_mono _ _ _ hnc h3]
  rfl

/-- Witness for bloom_no_false_negative at a concrete run. -/
theorem bloom_no_false_negative_witness :
    possibly_contains
      (bloomRun bloom_clear ([.clear] ++ .add 3 :: [.add 5])) 3 = true :=
  bloom_no_false_negative bloom_clear 3 [.clear] [.add 5] (by decide)

/-! ## Internal node, from src/src/node.cpp and include/node.h.
An internal page holds num_keys cells in a fixed array of capacity 510;
cell i is the pair (child page, key).  We model the physical cell array as
a function from index to pair, together with num_keys and right_child, so
that writes past num_keys (which insert_child performs) are expressible. -/

structure InternalNodeM where
  cells : Nat → Nat × Nat
  rightChild : Nat
  numKeys : Nat

namespace InternalNodeM

/-- InternalNode::get_key of src/src/node.cpp. -/
def getKey (nd : InternalNodeM) (i : Nat) : Nat := (nd.cells i).2

/-- InternalNode::get_child of src/src/node.cpp: index num_keys is right_child. -/
def getChild (nd : InternalNodeM) (i : Nat) : Nat :=
  if i = nd.numKeys then nd.rightChild else (nd.cells i).1

/-- The keys of the node in index order. -/
def keyList (nd : InternalNodeM) : List Nat :=
  (List.range nd.numKeys).map nd.getKey

/-- The num_keys + 1 children of the node in order, right_child last. -/
def childList (nd : InternalNodeM) : List Nat :=
  (List.range (nd.numKeys + 1)).map nd.getChild

end InternalNodeM

/-- The binary search loop of InternalNode::find_child in src/src/node.cpp:
while lo < hi, test get_key(mid) ≤ key and move lo past mid or hi to mid. -/
def bsearchGo (keys : List Nat) (key lo hi : Nat) : Nat :=
  if h : lo < hi then
    if keys.getD ((lo + hi) / 2) 0 ≤ key then
      bsearchGo keys key ((lo + hi) / 2 + 1) hi
    else bsearchGo keys key lo ((lo + hi) / 2)
  else lo
termination_by hi - lo
decreasing_by
  · omega
  · omega

/-- InternalNode::find_child of src/src/node.cpp. -/
def find_child (nd : InternalNodeM) (key : Nat) : Nat :=
  nd.getChild (bsearchGo nd.keyList key 0 nd.numKeys)

theorem keyList_length (nd : InternalNodeM) : nd.keyList.length = nd.numKeys := by
  simp [InternalNodeM.keyList]

theorem keyList_getD (nd : InternalNodeM) (j : Nat) (hj : j < nd.numKeys) :
    nd.keyList.getD j 0 = nd.getKey j := by
  unfold InternalNodeM.keyList
  rw [List.getD, List.get?_eq_getElem?, List.getElem?_map]
  rw [List.getElem?_range hj]
  rfl

/-- Loop invariant of the binary search: on sorted keys the result bounds
the searched key from both sides. -/
theorem bsearchGo_inv (keys : List Nat) (key : Nat)
    (hsort : List.Pairwise (· < ·) keys) :
    ∀ lo hi, lo ≤ hi → hi ≤ keys.length →
      (∀ j, j < lo → keys.getD j 0 ≤ key) →
      (∀ j, hi ≤ j → j < keys.length → key < keys.getD j 0) →
      lo ≤ bsearchGo keys key lo hi ∧ bsearchGo keys key lo hi ≤ hi ∧
      (∀ j, j < bsearchGo keys key lo hi → keys.getD j 0 ≤ key) ∧
      (∀ j, bsearchGo keys key lo hi ≤ j → j < keys.length →
        key < keys.getD j 0) := by
  intro lo hi
  induction lo, hi using bsearchGo.induct keys key with
  | case1 lo hi h hle ih =>
      intro _ hhi hlow hhigh
      rw [bsearchGo, dif_pos h, if_pos hle]
      have hmid : (lo + hi) / 2 < hi := by omega
      have hlow2 : ∀ j, j < (lo + hi) / 2 + 1 → keys.getD j 0 ≤ key := by
        intro j hj
        rcases Nat.lt_or_ge j ((lo + hi) / 2) with hc | hc
        · have hj2 : j < keys.length := by omega
          have hm2 : (lo + hi) / 2 < keys.length := by omega
          have := List.pairwise_iff_getElem.mp hsort j ((lo + hi) / 2) hj2 hm2 hc
          have hgj : keys.getD j 0 = keys[j] := by
            simp [List.getD, List.getElem?_eq_getElem hj2]
          have hgm : keys.getD ((lo + hi) / 2) 0 = keys[(lo + hi) / 2] := by
            simp [List.getD, List.getElem?_eq_getElem hm2]
          omega
        · have : j = (lo + hi) / 2 := by omega
          subst this
          exact hle
      obtain ⟨h1, h2, h3, h4⟩ := ih (by omega) hhi hlow2 hhigh
      exact ⟨by omega, h2, h3, h4⟩
  | case2 lo hi h hgt ih =>
      intro _ hhi hlow hhigh
      rw [bsearchGo, dif_pos h, if_neg hgt]
      have hmid : (lo + hi) / 2 < hi := by omega
      have hhigh2 : ∀ j, (lo + hi) / 2 ≤ j → j < keys.length →
          key < keys.getD j 0 := by
        intro j hj hj2
        rcases Nat.lt_or_ge j hi with hc | hc
        · rcases Nat.eq_or_lt_of_le hj with he | hlt
          · rw [← he]
            omega
          · have hm2 : (lo + hi) / 2 < keys.length := by omega
            have := List.pairwise_iff_getElem.mp hsort ((lo + hi) / 2) j hm2 hj2 hlt
            have hgj : keys.getD j 0 = keys[j] := by
              simp [List.getD, List.getElem?_eq_getElem hj2]
            have hgm : keys.getD ((lo + hi) / 2) 0 = keys[(lo + hi) / 2] := by
              simp [List.getD, List.getElem?_eq_getElem hm2]
            omega
        · exact hhigh j hc hj2
      obtain ⟨h1, h2, h3, h4⟩ := ih (by omega) (by omega) hlow hhigh2
      exact ⟨h1, by omega, h3, h4⟩
  | case3 lo hi h =>
      intro hle hhi hlow hhigh
      rw [bsearchGo, dif_neg h]
      exact ⟨Nat.le_refl _, by omega, hlow, fun j hj hj2 => hhigh j (by omega) hj2⟩

/-- The result of the full-range binary search is the smallest index whose
key exceeds the searched key, and num_keys when there is none. -/
theorem bsearchGo_spec (keys : List Nat) (key : Nat)
    (hsort : List.Pairwise (· < ·) keys) :
    bsearchGo keys key 0 keys.length ≤ keys.length ∧
    (∀ j, j < bsearchGo keys key 0 keys.length → keys.getD j 0 ≤ key) ∧
    (∀ j, bsearchGo keys key 0 keys.length ≤ j → j < keys.length →
      key < keys.getD j 0) := by
  have := bsearchGo_inv keys key hsort 0 keys.length (by omega) (by omega)
    (by omega) (by omega)
  exact ⟨this.2.1, this.2.2.1, this.2.2.2⟩

/-- The claim C8 property: find_child returns child(i) for the smallest
index i whose key strictly exceeds the searched key (so equal keys route
right), and right_child (through getChild at num_keys) when no key does. -/
theorem find_child_correct (nd : InternalNodeM) (key : Nat)
    (hsort : List.Pairwise (· < ·) nd.keyList) :
    ∃ i, find_child nd key = nd.getChild i ∧ i ≤ nd.numKeys ∧
      (∀ j, j < i → nd.getKey j ≤ key) ∧
      (i < nd.numKeys → key < nd.getKey i) := by
  refine ⟨bsearchGo nd.keyList key 0 nd.numKeys, rfl, ?_, ?_, ?_⟩
  · have := (bsearchGo_spec nd.keyList key hsort).1
    rwa [keyList_length] at this
  · intro j hj
    have hlen := keyList_length nd
    have hb := (bsearchGo_spec nd.keyList key hsort).2.1
    rw [hlen] at hb
    have hjn : j < nd.numKeys := by
      have := (bsearchGo_spec nd.keyList key hsort).1
      rw [hlen] at this
      omega
    have := hb j hj
    rwa [keyList_getD nd j hjn] at this
  · intro hi
    have hlen := keyList_length nd
    have hb := (bsearchGo_spec nd.keyList key hsort).2.2
    rw [hlen] at hb
    have := hb _ (Nat.le_refl _) (by omega)
    rwa [keyList_getD nd _ hi] at this

/-- Witness for find_child_correct on a concrete sorted node. -/
theorem find_child_correct_witness :
    ∃ i, find_child ⟨fun j => if j = 0 then (8, 10) else if j = 1 then (9, 20)
        else (0, 0), 4, 2⟩ 10 =
      InternalNodeM.getChild ⟨fun j => if j = 0 then (8, 10) else
        if j = 1 then (9, 20) else (0, 0), 4, 2⟩ i ∧ i ≤ 2 ∧
      (∀ j, j < i → InternalNodeM.getKey ⟨fun j => if j = 0 then (8, 10) else
        if j = 1 then (9, 20) else (0, 0), 4, 2⟩ j ≤ 10) ∧
      (i < 2 → 10 < InternalNodeM.getKey ⟨fun j => if j = 0 then (8, 10) else
        if j = 1 then (9, 20) else (0, 0), 4, 2⟩ i) :=
  find_child_correct _ 10 (by
    unfold InternalNodeM.keyList InternalNodeM.getKey
    decide)

/-! ## InternalNode::insert_child, from src/src/node.cpp.
The C++ body has three phases in the middle-insertion branch: first cell
num is written from right_child and key num-1, then the shift loop runs i
from num-1 down to index+2 copying cell i-1 into cell i (each read
happens before the lower cell is overwritten, so the copies all read the
original array), then key index and cell index+1 are written.  The
functional composition below reproduces each phase. -/

def insert_child (nd : InternalNodeM) (index key newChildPage : Nat) :
    InternalNodeM :=
  let num := nd.numKeys
  if index = num then
    { nd with
      cells := fun i => if i = num then (nd.rightChild, key) else nd.cells i,
      rightChild := newChildPage,
      numKeys := num + 1 }
  else
    let a1 : Nat → Nat × Nat := fun i =>
      if i = num then (nd.rightChild, (nd.cells (num - 1)).2) else nd.cells i
    let a2 : Nat → Nat × Nat := fun i =>
      if index + 2 ≤ i ∧ i < num then a1 (i - 1) else a1 i
    let keyOld := (a2 index).2
    let a3 : Nat → Nat × Nat := fun i =>
      if i = index then ((a2 index).1, key) else a2 i
    let a4 : Nat → Nat × Nat := fun i =>
      if i = index + 1 then (newChildPage, keyOld) else a3 i
    { nd with cells := a4, numKeys := num + 1 }

/-- Modelled from the spec: the contract of insert_child places the pair
(new_key, new_child) immediately to the right of child index, preserving
every other key and child, so the child list becomes take (index+1) ++
[new_child] ++ drop (index+1) and the key list becomes take index ++
[new_key] ++ drop index. -/
def spec_insert_child (children keys : List Nat)
    (index newKey newChild : Nat) : List Nat × List Nat :=
  (children.take (index + 1) ++ newChild :: children.drop (index + 1),
   keys.take index ++ newKey :: keys.drop index)

/-- The concrete failing input for claim C1: two keys, children 2, 3, 4. -/
def c1Node : InternalNodeM :=
  ⟨fun i => if i = 0 then (2, 10) else if i = 1 then (3, 20) else (0, 0), 4, 2⟩

/-- The claim C1 counterexample: inserting child 9 with key 5 immediately
to the right of child index 0 should give children 2, 9, 3, 4 by the
contract, but the code yields children 2, 9, 4, 4 — the old child 3 is
dropped from the node and the right child 4 is duplicated. -/
theorem insert_child_drops_child :
    (insert_child c1Node 0 5 9).childList = [2, 9, 4, 4] ∧
    (insert_child c1Node 0 5 9).keyList = [5, 10, 20] ∧
    (spec_insert_child c1Node.childList c1Node.keyList 0 5 9).1 =
      [2, 9, 3, 4] ∧
    (insert_child c1Node 0 5 9).childList ≠
      (spec_insert_child c1Node.childList c1Node.keyList 0 5 9).1 := by
  refine ⟨?_, ?_, ?_, ?_⟩ <;> decide

/-! ## Leaf split, from BTree::split_leaf in src/src/btree.cpp.
The split collects the existing rows plus the new one in key order,
scans for the first index whose running sum of record size + slot size
exceeds half the usable space (2039 of 4078 bytes), and reinserts the
prefix before that index into the old page and the rest into the new
page.  After reinsertion into a freshly initialised page, total_free is
4078 minus the sum of record size + 4 over the rows it received (each
LeafNode::insert subtracts record size + SLOT_SIZE), so used bytes equal
that sum; we therefore reason on row lists. -/

/-- Bytes a row consumes in a leaf: record size plus the 4-byte slot. -/
def record_space (r : Row) : Nat := serialized_row_size r + 4

/-- Used bytes of a leaf rebuilt from the given rows. -/
def usedBytes (rows : List Row) : Nat := (rows.map record_space).sum

/-- Step 1 of split_leaf: existing rows plus the new one in key order; the
C++ loop inserts the new row before the first existing key above new_key
and appends it when no key is larger. -/
def buildAllRows (oldRows : List Row) (newKey : Nat) (newRow : Row) :
    List Row :=
  match oldRows with
  | [] => [newRow]
  | r :: rest =>
      if newKey < r.id then newRow :: r :: rest
      else r :: buildAllRows rest newKey newRow

/-- Step 2 loop of split_leaf: accumulate record size + slot size and
report the first index whose running sum exceeds 2039, forced to 1 when
that happens already at index 0. -/
def splitScan : List Row → Nat → Nat → Option Nat
  | [], _, _ => none
  | r :: rest, running, i =>
      if 2039 < running + record_space r then some (if 0 < i then i else 1)
      else splitScan rest (running + record_space r) (i + 1)

/-- The split point of split_leaf: scan result, or half the row count when
the scan never fires. -/
def split_point (allRows : List Row) : Nat :=
  (splitScan allRows 0 0).getD (allRows.length / 2)

/-- Step 5 of split_leaf: rows kept by the old page and rows moved to the
new page. -/
def splitRows (allRows : List Row) : List Row × List Row :=
  (allRows.take (split_point allRows), allRows.drop (split_point allRows))

/-- LeafNode::leaf_underflow of src/src/node.cpp on the rows of a leaf
whose total_free matches its content: fewer than LEAF_MIN_CELLS = 2 cells,
or used bytes below half the usable space (4078 / 2 = 2039). -/
def leaf_underflow_rows (rows : List Row) : Bool :=
  decide (rows.length < 2) || decide (usedBytes rows < 2039)

/-- LeafNode::can_fit of src/src/node.cpp for a leaf holding the given
rows: total_free = 4078 - usedBytes must be at least record size + 4. -/
def can_fit_rows (rows : List Row) (newRow : Row) : Bool :=
  decide (usedBytes rows + record_space newRow ≤ 4078)

/-- A maximal row: 31-byte username, 254-byte email, record size 293. -/
def bigRow (i : Nat) : Row := ⟨i, List.replicate 31 97, List.replicate 254 98⟩

/-- Thirteen maximal rows: a leaf with 3861 of 4078 bytes used. -/
def c2OldRows : List Row := (List.range 13).map (fun i => bigRow (i + 1))

set_option maxRecDepth 40000 in
/-- The claim C2 counterexample: a non-root leaf holding thirteen maximal
rows cannot fit a fourteenth, so the insert splits; the code keeps only
the rows strictly before the index where the running sum crosses half, so
the left leaf ends the completed insert with 6 cells and 1782 used bytes,
below the claimed 2039 bound, in underflow by the own test of the code. -/
theorem split_left_underflow_cex :
    can_fit_rows c2OldRows (bigRow 14) = false ∧
    (splitRows (buildAllRows c2OldRows 14 (bigRow 14))).1.length = 6 ∧
    usedBytes (splitRows (buildAllRows c2OldRows 14 (bigRow 14))).1 = 1782 ∧
    ¬ 2039 ≤ usedBytes (splitRows (buildAllRows c2OldRows 14 (bigRow 14))).1 ∧
    leaf_underflow_rows (splitRows (buildAllRows c2OldRows 14 (bigRow 14))).1 =
      true := by
  refine ⟨?_, ?_, ?_, ?_, ?_⟩ <;> decide

theorem record_space_le (r : Row) (hu : r.username.length ≤ 31)
    (he : r.email.length ≤ 254) : record_space r ≤ 297 := by
  unfold record_space serialized_row_size
  omega

theorem usedBytes_append (a b : List Row) :
    usedBytes (a ++ b) = usedBytes a + usedBytes b := by
  simp [usedBytes]

theorem splitScan_none (rows : List Row) :
    ∀ run i, splitScan rows run i = none → run ≤ 2039 →
      run + usedBytes rows ≤ 2039 := by
  induction rows with
  | nil => intro run i _ hrun; simpa [usedBytes] using hrun
  | cons r rest ih =>
      intro run i h hrun
      rw [splitScan] at h
      by_cases hc : 2039 < run + record_space r
      · rw [if_pos hc] at h; exact absurd h (by simp)
      · rw [if_neg hc] at h
        have := ih _ _ h (by omega)
        simp only [usedBytes, List.map_cons, List.sum_cons] at this ⊢
        omega

theorem splitScan_some (rows : List Row) :
    ∀ run i j, splitScan rows run i = some j → run ≤ 2039 →
      ∃ k, k < rows.length ∧ run + usedBytes (rows.take k) ≤ 2039 ∧
        j = if i + k = 0 then 1 else i + k := by
  induction rows with
  | nil => intro run i j h; exact absurd h (by simp [splitScan])
  | cons r rest ih =>
      intro run i j h hrun
      rw [splitScan] at h
      by_cases hc : 2039 < run + record_space r
      · rw [if_pos hc] at h
        have hj : (if 0 < i then i else 1) = j := Option.some.inj h
        refine ⟨0, by simp, by simpa [usedBytes] using hrun, ?_⟩
        rcases Nat.eq_zero_or_pos i with hz | hp
        · subst hz
          rw [← hj]
          decide
        · have hne : i + 0 ≠ 0 := by omega
          rw [← hj, if_pos hp, if_neg hne]
          omega
      · rw [if_neg hc] at h
        obtain ⟨k, hk1, hk2, hk3⟩ := ih _ _ _ h (by omega)
        refine ⟨k + 1, by simpa using hk1, ?_, ?_⟩
        · simp only [List.take_succ_cons, usedBytes, List.map_cons,
            List.sum_cons] at hk2 ⊢
          omega
        · rw [hk3, if_neg (by omega), if_neg (by omega)]
          omega

/-- The claim C2 amended: when a leaf overflows (its rows plus the new one
exceed the 4078 usable bytes) and every row respects the codec bounds,
the split sends at least 2039 bytes and at least 2 rows to the right
leaf, keeps at least one row on the left leaf, but leaves the left leaf
with at most 2039 used bytes, so the left side is what can violate the
claimed occupancy bound. -/
theorem split_right_occupancy (allRows : List Row)
    (hb : ∀ r ∈ allRows, r.username.length ≤ 31 ∧ r.email.length ≤ 254)
    (hover : 4078 < usedBytes allRows) :
    2 ≤ (splitRows allRows).2.length ∧ 2039 ≤ usedBytes (splitRows allRows).2 ∧
    1 ≤ (splitRows allRows).1.length ∧ usedBytes (splitRows allRows).1 ≤ 2039 := by
  have hlen0 : allRows ≠ [] := by
    intro he
    rw [he] at hover
    simp [usedBytes] at hover
  rcases hscan : splitScan allRows 0 0 with _ | j
  · have := splitScan_none allRows 0 0 hscan (by omega)
    omega
  · have hsp : split_point allRows = j := by
      unfold split_point
      rw [hscan]
      rfl
    obtain ⟨k, hk1, hk2, hk3⟩ := splitScan_some allRows 0 0 j hscan (by omega)
    simp only [Nat.zero_add] at hk3
    have hj1 : 1 ≤ j := by
      rcases Nat.eq_zero_or_pos k with hz | hp
      · rw [hk3, hz]
        decide
      · rw [hk3, if_neg (by omega)]
        omega
    have htake : usedBytes (allRows.take j) ≤ 2039 := by
      rcases Nat.eq_zero_or_pos k with hz | hp
      · subst hz
        rw [hk3]
        show usedBytes (allRows.take 1) ≤ 2039
        rcases allRows with _ | ⟨r0, rest⟩
        · exact absurd rfl hlen0
        · simp only [List.take_succ_cons, List.take_zero]
          have hr0 := hb r0 (by simp)
          have := record_space_le r0 hr0.1 hr0.2
          simp [usedBytes]
          omega
      · rw [hk3, if_neg (by omega)] at hsp ⊢
        simpa using hk2
    have hsplit : usedBytes (allRows.take j) + usedBytes (allRows.drop j) =
        usedBytes allRows := by
      rw [← usedBytes_append, List.take_append_drop]
    have hdrop : 2040 ≤ usedBytes (allRows.drop j) := by omega
    have hdlen : 2 ≤ (allRows.drop j).length := by
      by_contra hcon
      have hsmall : (allRows.drop j).length ≤ 1 := by omega
      have hbound : usedBytes (allRows.drop j) ≤ 297 := by
        rcases hd : allRows.drop j with _ | ⟨r0, rest⟩
        · simp [usedBytes]
        · have hrest : rest = [] := by
            rw [hd] at hsmall
            simpa using hsmall
          subst hrest
          have hmem : r0 ∈ allRows := by
            have : r0 ∈ allRows.drop j := by rw [hd]; simp
            exact List.mem_of_mem_drop this
          have hr0 := hb r0 hmem
          have := record_space_le r0 hr0.1 hr0.2
          simp [usedBytes]
          omega
      omega
    refine ⟨?_, ?_, ?_, ?_⟩
    · simpa [splitRows, hsp] using hdlen
    · simp only [splitRows, hsp]
      omega
    · have hmin : (allRows.take j).length = min j allRows.length := by simp
      have hlen : 1 ≤ allRows.length := by
        rcases allRows with _ | _
        · exact absurd rfl hlen0
        · simp
      simp only [splitRows, hsp]
      omega
    · simpa [splitRows, hsp] using htake

set_option maxRecDepth 40000 in
/-- Witness for split_right_occupancy at the concrete overflowing leaf. -/
theorem split_right_occupancy_witness :
    2 ≤ (splitRows (buildAllRows c2OldRows 14 (bigRow 14))).2.length ∧
    2039 ≤ usedBytes (splitRows (buildAllRows c2OldRows 14 (bigRow 14))).2 ∧
    1 ≤ (splitRows (buildAllRows c2OldRows 14 (bigRow 14))).1.length ∧
    usedBytes (splitRows (buildAllRows c2OldRows 14 (bigRow 14))).1 ≤ 2039 :=
  split_right_occupancy (buildAllRows c2OldRows 14 (bigRow 14))
    (by decide) (by decide)

/-! ## LRU eviction, from Pager::evict_lru and Pager::get_page in
src/src/pager.cpp.  The pool is the set of cached page numbers, lru_order
lists them front = MRU to back = LRU, and pin_counts maps a page to its
pin count (a page is pinned when the count is positive; the C++ map holds
no zero entries because unpin_page erases them, and pin_counts.count(p)
is 0 exactly when the pin count is 0).  evict_lru walks lru_order from
the back, evicts the first unpinned page it meets, and when every page is
pinned it prints an error to stderr and returns without evicting; the
miss path of get_page then retries it in the while loop, whose condition
pool.size() >= BUFFER_POOL_SIZE never changes. -/

structure PoolState where
  lruOrder : List Nat
  poolPages : List Nat
  pinCounts : Nat → Nat
  evicts : Nat

/-- The backward walk of Pager::evict_lru: the candidate closest to the
back of lru_order whose pin count is zero. -/
def evictScanBack (order : List Nat) (pins : Nat → Nat) : Option Nat :=
  match order with
  | [] => none
  | c :: rest =>
      match evictScanBack rest pins with
      | some x => some x
      | none => if pins c = 0 then some c else none

/-- Pager::evict_lru of src/src/pager.cpp: evict the LRU-most unpinned
page, or print an error and return the state unchanged when every page in
the order is pinned. -/
def evict_lru (s : PoolState) : PoolState :=
  match evictScanBack s.lruOrder s.pinCounts with
  | some c =>
      { s with
        lruOrder := s.lruOrder.erase c,
        poolPages := s.poolPages.erase c,
        evicts := s.evicts + 1 }
  | none => s

/-- The miss-path eviction loop of Pager::get_page: while the pool holds
at least BUFFER_POOL_SIZE = 100 frames, call evict_lru.  Modelled with
fuel; a run that exhausts any amount of fuel returns none. -/
def evictLoop : Nat → PoolState → Option PoolState
  | fuel, s =>
      if s.poolPages.length ≥ 100 then
        match fuel with
        | 0 => none
        | f + 1 => evictLoop f (evict_lru s)
      else some s

theorem evictScanBack_none (order : List Nat) (pins : Nat → Nat)
    (h : ∀ p ∈ order, pins p ≠ 0) : evictScanBack order pins = none := by
  induction order with
  | nil => rfl
  | cons c rest ih =>
      rw [evictScanBack, ih (fun p hp => h p (List.mem_cons_of_mem _ hp))]
      rw [if_neg (h c (List.mem_cons_self _ _))]

/-- The claim C9 behaviour on the code as written: when the pool is full
and every cached page is pinned, evict_lru leaves the state untouched
(after printing an error) and the get_page miss loop never terminates,
for any amount of fuel; the process does not stop with a fatal error. -/
theorem pool_exhausted_spins (s : PoolState)
    (hfull : 100 ≤ s.poolPages.length)
    (hpin : ∀ p ∈ s.lruOrder, s.pinCounts p ≠ 0) :
    evict_lru s = s ∧ ∀ fuel, evictLoop fuel s = none := by
  have hev : evict_lru s = s := by
    unfold evict_lru
    rw [evictScanBack_none _ _ hpin]
  refine ⟨hev, ?_⟩
  intro fuel
  induction fuel with
  | zero =>
      rw [evictLoop, if_pos (by omega)]
  | succ f ih =>
      rw [evictLoop, if_pos (by omega), hev]
      exact ih

/-- Witness for pool_exhausted_spins: one hundred cached pages, each
pinned once. -/
theorem pool_exhausted_spins_witness :
    evict_lru ⟨List.range 100, List.range 100, fun _ => 1, 0⟩ =
      ⟨List.range 100, List.range 100, fun _ => 1, 0⟩ ∧
    ∀ fuel, evictLoop fuel ⟨List.range 100, List.range 100, fun _ => 1, 0⟩ =
      none :=
  pool_exhausted_spins ⟨List.range 100, List.range 100, fun _ => 1, 0⟩
    (by simp) (by intro p _; simp)

/-! ## CRC32 and page stamping, from crc32_compute in src/src/utils.cpp and
Pager::flush / Pager::get_page in src/src/pager.cpp.  A page is a list of
4096 bytes.  The table entry for index i applies the bit step eight times
to i; the compute loop folds the table step over the buffer starting from
all ones and applies the final xor. -/

/-- One bit step of the table construction in crc32_init: shift right one
bit and xor the reflected polynomial when the low bit was set. -/
def crcStep (c : Nat) : Nat :=
  if c % 2 = 1 then 0xEDB88320 ^^^ c / 2 else c / 2

/-- Entry i of the 256-entry table of crc32_init: eight bit steps. -/
def crc32_table (i : Nat) : Nat := crcStep^[8] i

/-- crc32_compute of src/src/utils.cpp over a byte list. -/
def crc32_compute (buf : List Nat) : Nat :=
  (buf.foldl (fun crc b => crc32_table ((crc ^^^ b) &&& 255) ^^^ crc / 256)
    0xFFFFFFFF) ^^^ 0xFFFFFFFF

/-- The page image with the 4-byte checksum field at offset 2 zeroed, as
both flush and the get_page verification produce before computing. -/
def zeroCRC (p : List Nat) : List Nat :=
  (((p.set 2 0).set 3 0).set 4 0).set 5 0

/-- The CRC stamp of Pager::flush: zero the field, compute over the full
page, store the value little endian at bytes 2 to 5. -/
def stampCRC (p : List Nat) : List Nat :=
  (((zeroCRC p).set 2 (crc32_compute (zeroCRC p) % 256)).set 3
      (crc32_compute (zeroCRC p) / 256 % 256)).set 4
      (crc32_compute (zeroCRC p) / 65536 % 256) |>.set 5
      (crc32_compute (zeroCRC p) / 16777216 % 256)

/-- Pager::flush of src/src/pager.cpp on the cached frame: pages after the
header whose type byte is LEAF = 1 or INTERNAL = 0 get stamped, any other
frame is written unchanged. -/
def flush_page (pageNum : Nat) (p : List Nat) : List Nat :=
  if 0 < pageNum ∧ (p.getD 0 0 = 1 ∨ p.getD 0 0 = 0) then stampCRC p else p

/-- The verification of Pager::get_page on a page read back from disk:
true when no CRC mismatch warning is printed.  A stored value of zero
skips the check; otherwise the stored value is compared against the
recomputation over the page with the field zeroed. -/
def verify_page (pageNum : Nat) (p : List Nat) : Bool :=
  if 0 < pageNum ∧ (p.getD 0 0 = 1 ∨ p.getD 0 0 = 0) then
    if rdLE32L p 2 = 0 then true
    else rdLE32L p 2 == crc32_compute (zeroCRC p)
  else true

theorem crcStep_lt (c : Nat) (h : c < 4294967296) : crcStep c < 4294967296 := by
  unfold crcStep
  by_cases hc : c % 2 = 1
  · rw [if_pos hc]
    have h1 : (0xEDB88320 : Nat) < 2 ^ 32 := by norm_num
    have h2 : c / 2 < 2 ^ 32 := by omega
    have := Nat.xor_lt_two_pow h1 h2
    simpa using this
  · rw [if_neg hc]
    omega

theorem crcStep_iter_lt (n c : Nat) (h : c < 4294967296) :
    crcStep^[n] c < 4294967296 := by
  induction n generalizing c with
  | zero => simpa using h
  | succ m ih =>
      rw [Function.iterate_succ_apply]
      exact ih _ (crcStep_lt c h)

theorem crc32_table_lt (i : Nat) (h : i < 4294967296) :
    crc32_table i < 4294967296 := crcStep_iter_lt 8 i h

theorem crc32_compute_lt (buf : List Nat) : crc32_compute buf < 4294967296 := by
  unfold crc32_compute
  have hfold : ∀ (l : List Nat) (crc : Nat), crc < 4294967296 →
      l.foldl (fun crc b => crc32_table ((crc ^^^ b) &&& 255) ^^^ crc / 256)
        crc < 4294967296 := by
    intro l
    induction l with
    | nil => intro crc h; simpa using h
    | cons b rest ih =>
        intro crc h
        rw [List.foldl_cons]
        apply ih
        have h1 : crc32_table ((crc ^^^ b) &&& 255) < 4294967296 := by
          apply crc32_table_lt
          have : (crc ^^^ b) &&& 255 ≤ 255 := Nat.and_le_right
          omega
        have h2 : crc / 256 < 2 ^ 32 := by omega
        have := Nat.xor_lt_two_pow (by simpa using h1) h2
        simpa using this
  have h1 := hfold buf 0xFFFFFFFF (by norm_num)
  have h2 : (0xFFFFFFFF : Nat) < 2 ^ 32 := by norm_num
  have := Nat.xor_lt_two_pow (by simpa using h1) h2
  simpa using this

theorem getD_set_eq (l : List Nat) (i v : Nat) (h : i < l.length) :
    (l.set i v).getD i 0 = v := by
  rw [List.getD, List.get?_eq_getElem?, List.getElem?_set_eq_of_lt _ h]
  rfl

theorem getD_set_ne (l : List Nat) (i j v : Nat) (h : i ≠ j) :
    (l.set i v).getD j 0 = l.getD j 0 := by
  rw [List.getD, List.getD, List.get?_eq_getElem?, List.get?_eq_getElem?,
    List.getElem?_set_ne h]

theorem zeroCRC_length (p : List Nat) : (zeroCRC p).length = p.length := by
  simp [zeroCRC]

theorem stampCRC_length (p : List Nat) : (stampCRC p).length = p.length := by
  simp [stampCRC, zeroCRC]

theorem zeroCRC_stampCRC (p : List Nat) : zeroCRC (stampCRC p) = zeroCRC p := by
  unfold stampCRC zeroCRC
  apply List.ext_getElem?
  intro i
  simp only [List.getElem?_set, List.length_set]
  rcases Nat.lt_or_ge i 6 with h | h
  · interval_cases i <;> simp
  · have h2 : i ≠ 2 := by omega
    have h3 : i ≠ 3 := by omega
    have h4 : i ≠ 4 := by omega
    have h5 : i ≠ 5 := by omega
    simp [Ne.symm h2, Ne.symm h3, Ne.symm h4, Ne.symm h5]

theorem rdLE32L_stampCRC (p : List Nat) (hlen : p.length = 4096) :
    rdLE32L (stampCRC p) 2 = crc32_compute (zeroCRC p) := by
  unfold rdLE32L stampCRC
  have hl : ∀ q : List Nat, q.length = 4096 → True := fun _ _ => trivial
  have hz : (zeroCRC p).length = 4096 := by rw [zeroCRC_length, hlen]
  rw [getD_set_eq _ 5 _ (by simp [hz]),
    getD_set_ne _ 5 4 _ (by omega), getD_set_eq _ 4 _ (by simp [hz]),
    getD_set_ne _ 5 3 _ (by omega), getD_set_ne _ 4 3 _ (by omega),
    getD_set_eq _ 3 _ (by simp [hz]),
    getD_set_ne _ 5 2 _ (by omega), getD_set_ne _ 4 2 _ (by omega),
    getD_set_ne _ 3 2 _ (by omega), getD_set_eq _ 2 _ (by omega)]
  have := crc32_compute_lt (zeroCRC p)
  omega

/-- The claim C5 property: after flush, a LEAF or INTERNAL page carries at
bytes 2 to 5 exactly the CRC32 of the page with those bytes zeroed, and
reading the page back through the get_page verification reports no
mismatch. -/
theorem flush_crc_correct (pageNum : Nat) (p : List Nat)
    (hlen : p.length = 4096) (hn : 0 < pageNum)
    (htype : p.getD 0 0 = 1 ∨ p.getD 0 0 = 0) :
    rdLE32L (flush_page pageNum p) 2 =
      crc32_compute (zeroCRC (flush_page pageNum p)) ∧
    verify_page pageNum (flush_page pageNum p) = true := by
  have htype0 : (stampCRC p).getD 0 0 = p.getD 0 0 := by
    unfold stampCRC zeroCRC
    rw [getD_set_ne _ _ _ _ (by omega), getD_set_ne _ _ _ _ (by omega),
      getD_set_ne _ _ _ _ (by omega), getD_set_ne _ _ _ _ (by omega),
      getD_set_ne _ _ _ _ (by omega), getD_set_ne _ _ _ _ (by omega),
      getD_set_ne _ _ _ _ (by omega), getD_set_ne _ _ _ _ (by omega)]
  have hfl : flush_page pageNum p = stampCRC p := by
    unfold flush_page
    rw [if_pos ⟨hn, htype⟩]
  have hstored : rdLE32L (stampCRC p) 2 = crc32_compute (zeroCRC p) :=
    rdLE32L_stampCRC p hlen
  have hzz : zeroCRC (stampCRC p) = zeroCRC p := zeroCRC_stampCRC p
  constructor
  · rw [hfl, hstored, hzz]
  · rw [hfl]
    unfold verify_page
    rw [if_pos ⟨hn, by rw [htype0]; exact htype⟩]
    by_cases hzero : rdLE32L (stampCRC p) 2 = 0
    · rw [if_pos hzero]
    · rw [if_neg hzero, hstored, hzz]
      simp

set_option maxRecDepth 40000 in
/-- Witness for flush_crc_correct on a concrete all-zero leaf page. -/
theorem flush_crc_correct_witness :
    rdLE32L (flush_page 1 (1 :: List.replicate 4095 0)) 2 =
      crc32_compute (zeroCRC (flush_page 1 (1 :: List.replicate 4095 0))) ∧
    verify_page 1 (flush_page 1 (1 :: List.replicate 4095 0)) = true :=
  flush_crc_correct 1 (1 :: List.replicate 4095 0)
    (by rw [List.length_cons, List.length_replicate]) (by omega)
    (Or.inl (by rw [List.getD_cons_zero]))

/-! ## Byte frames as functions, shared by the free-list and leaf models.
A frame is a function from byte offset to byte value; wr8F is a single
byte store, wr16F and wr32F are the little-endian multi-byte stores the
C++ performs through pointer casts, rd16F and rd32F the matching loads. -/

def wr8F (p : Nat → Nat) (off v : Nat) : Nat → Nat :=
  fun a => if a = off then v else p a

def wr16F (p : Nat → Nat) (off v : Nat) : Nat → Nat :=
  wr8F (wr8F p off (v % 256)) (off + 1) (v / 256 % 256)

def wr32F (p : Nat → Nat) (off v : Nat) : Nat → Nat :=
  wr8F (wr8F (wr8F (wr8F p off (v % 256)) (off + 1) (v / 256 % 256))
    (off + 2) (v / 65536 % 256)) (off + 3) (v / 16777216 % 256)

def rd16F (p : Nat → Nat) (off : Nat) : Nat := p off + 256 * p (off + 1)

def rd32F (p : Nat → Nat) (off : Nat) : Nat :=
  p off + 256 * p (off + 1) + 65536 * p (off + 2) + 16777216 * p (off + 3)

theorem wr8F_at (p : Nat → Nat) (off v : Nat) : wr8F p off v off = v := by
  simp [wr8F]

theorem wr8F_ne (p : Nat → Nat) (off v a : Nat) (h : a ≠ off) :
    wr8F p off v a = p a := by
  simp [wr8F, h]

theorem wr16F_reads (p : Nat → Nat) (off v a : Nat) :
    wr16F p off v a =
      if a = off then v % 256
      else if a = off + 1 then v / 256 % 256 else p a := by
  unfold wr16F
  by_cases h1 : a = off + 1
  · rw [h1, wr8F_at, if_neg (by omega), if_pos rfl]
  · rw [wr8F_ne _ _ _ _ h1]
    by_cases h0 : a = off
    · rw [h0, wr8F_at, if_pos rfl]
    · rw [wr8F_ne _ _ _ _ h0, if_neg h0, if_neg h1]

theorem wr32F_reads (p : Nat → Nat) (off v a : Nat) :
    wr32F p off v a =
      if a = off then v % 256
      else if a = off + 1 then v / 256 % 256
      else if a = off + 2 then v / 65536 % 256
      else if a = off + 3 then v / 16777216 % 256 else p a := by
  unfold wr32F
  by_cases h3 : a = off + 3
  · rw [h3, wr8F_at, if_neg (by omega), if_neg (by omega), if_neg (by omega),
      if_pos rfl]
  · rw [wr8F_ne _ _ _ _ h3, if_neg h3]
    by_cases h2 : a = off + 2
    · rw [h2, wr8F_at, if_neg (by omega), if_neg (by omega)]
      rw [if_pos rfl]
    · rw [wr8F_ne _ _ _ _ h2, if_neg h2]
      by_cases h1 : a = off + 1
      · rw [h1, wr8F_at, if_neg (by omega), if_pos rfl]
      · rw [wr8F_ne _ _ _ _ h1, if_neg h1]
        by_cases h0 : a = off
        · rw [h0, wr8F_at, if_pos rfl]
        · rw [wr8F_ne _ _ _ _ h0, if_neg h0]

theorem rd16F_wr16F (p : Nat → Nat) (off v : Nat) (hv : v < 65536) :
    rd16F (wr16F p off v) off = v := by
  unfold rd16F
  rw [wr16F_reads, wr16F_reads, if_pos rfl, if_neg (by omega), if_pos rfl]
  omega

theorem rd32F_wr32F (p : Nat → Nat) (off v : Nat) (hv : v < 4294967296) :
    rd32F (wr32F p off v) off = v := by
  unfold rd32F
  rw [wr32F_reads, wr32F_reads, wr32F_reads, wr32F_reads]
  rw [if_pos rfl]
  rw [if_neg (by omega), if_pos rfl]
  rw [if_neg (by omega), if_neg (by omega), if_pos rfl]
  rw [if_neg (by omega), if_neg (by omega), if_neg (by omega), if_pos rfl]
  omega

/-! ## Pager free list, from Pager::free_page, Pager::get_unused_page_num
and Pager::write_header in src/src/pager.cpp.  The buffer pool and the
file are collapsed into one store from page number to frame, since
get_page hands back the current content of the page either way; the
header struct DbHeader of include/common.h keeps its five fields.
NODE_FREE = 2, HEADER_SIGE is the 6 byte common header, ROOT_PAGE = 1. -/

structure PagerState where
  store : Nat → Nat → Nat
  magic : Nat
  pageSize : Nat
  totalPages : Nat
  freePages : Nat
  firstFreePage : Nat

/-- The byte image of DbHeader, as memcpy of the struct writes it. -/
def headerBytes (s : PagerState) : List Nat :=
  le32 s.magic ++ le32 s.pageSize ++ le32 s.totalPages ++ le32 s.freePages ++
    le32 s.firstFreePage

/-- Store a byte list into a frame at an offset. -/
def writeBytesF (f : Nat → Nat) (off : Nat) (bs : List Nat) : Nat → Nat :=
  fun a => if off ≤ a ∧ a < off + bs.length then bs.getD (a - off) 0 else f a

/-- Pager::write_header of src/src/pager.cpp: copy the header struct into
the first bytes of the header page frame. -/
def write_header (s : PagerState) : PagerState :=
  { s with store := fun pg =>
      if pg = 0 then writeBytesF (s.store 0) 0 (headerBytes s) else s.store pg }

/-- Pager::free_page of src/src/pager.cpp: refuse the header and root
pages, otherwise zero the frame, mark it NODE_FREE, store the old free
list head at offset 6, push the page as the new head and persist. -/
def free_page (s : PagerState) (n : Nat) : PagerState :=
  if n ≤ 1 then s
  else
    write_header
      { s with
        store := fun pg =>
          if pg = n then wr32F (wr8F (fun _ => 0) 0 2) 6 s.firstFreePage
          else s.store pg,
        firstFreePage := n,
        freePages := s.freePages + 1 }

/-- Pager::get_unused_page_num of src/src/pager.cpp: pop the free list
head after reading its next pointer at offset 6 and zero the frame, else
grow the file; persist the header either way. -/
def get_unused_page_num (s : PagerState) : Nat × PagerState :=
  if s.firstFreePage ≠ 0 then
    (s.firstFreePage,
      write_header
        { s with
          firstFreePage := rd32F (s.store s.firstFreePage) 6,
          freePages := s.freePages - 1,
          store := fun pg =>
            if pg = s.firstFreePage then (fun _ => 0) else s.store pg })
  else
    (s.totalPages, write_header { s with totalPages := s.totalPages + 1 })

/-- The claim C6 property: freeing a page above the root zeroes the frame
except for the FREE mark at byte 0 and the old head stored at offset 6,
pushes the page on the free list and bumps the count; a following
allocation returns the same page, restores the old head, restores the
count and hands back an all-zero frame; freeing page 0 or 1 refuses. -/
theorem free_then_allocate (s : PagerState) (n : Nat) (hn : 1 < n)
    (hv : s.firstFreePage < 4294967296) :
    (free_page s n).store n 0 = 2 ∧
    rd32F ((free_page s n).store n) 6 = s.firstFreePage ∧
    (∀ a, a ≠ 0 → a < 6 ∨ 10 ≤ a → (free_page s n).store n a = 0) ∧
    (free_page s n).firstFreePage = n ∧
    (free_page s n).freePages = s.freePages + 1 ∧
    (free_page s n).totalPages = s.totalPages ∧
    (get_unused_page_num (free_page s n)).1 = n ∧
    (get_unused_page_num (free_page s n)).2.firstFreePage = s.firstFreePage ∧
    (get_unused_page_num (free_page s n)).2.freePages = s.freePages ∧
    (∀ a, (get_unused_page_num (free_page s n)).2.store n a = 0) ∧
    (∀ k, k ≤ 1 → free_page s k = s) := by
  have hfr : free_page s n = write_header
      { s with
        store := fun pg =>
          if pg = n then wr32F (wr8F (fun _ => 0) 0 2) 6 s.firstFreePage
          else s.store pg,
        firstFreePage := n,
        freePages := s.freePages + 1 } := by
    unfold free_page
    rw [if_neg (by omega)]
  have hstore1 : (free_page s n).store n =
      wr32F (wr8F (fun _ => 0) 0 2) 6 s.firstFreePage := by
    rw [hfr]
    unfold write_header
    simp only []
    rw [if_neg (by omega)]
    simp
  have hffp1 : (free_page s n).firstFreePage = n := by
    rw [hfr]; rfl
  have hfp1 : (free_page s n).freePages = s.freePages + 1 := by
    rw [hfr]; rfl
  have htp1 : (free_page s n).totalPages = s.totalPages := by
    rw [hfr]; rfl
  have hbyte0 : (free_page s n).store n 0 = 2 := by
    rw [hstore1, wr32F_reads]
    rw [if_neg (by omega), if_neg (by omega), if_neg (by omega),
      if_neg (by omega), wr8F_at]
  have hnext : rd32F ((free_page s n).store n) 6 = s.firstFreePage := by
    rw [hstore1]
    exact rd32F_wr32F _ 6 _ hv
  have hzero : ∀ a, a ≠ 0 → a < 6 ∨ 10 ≤ a → (free_page s n).store n a = 0 := by
    intro a ha har
    rw [hstore1, wr32F_reads]
    rw [if_neg (by omega), if_neg (by omega), if_neg (by omega),
      if_neg (by omega), wr8F_ne _ _ _ _ ha]
  have halloc : get_unused_page_num (free_page s n) =
      (n, write_header
        { free_page s n with
          firstFreePage := rd32F ((free_page s n).store n) 6,
          freePages := (free_page s n).freePages - 1,
          store := fun pg =>
            if pg = n then (fun _ => 0) else (free_page s n).store pg }) := by
    unfold get_unused_page_num
    rw [hffp1]
    rw [if_pos (by omega)]
  refine ⟨hbyte0, hnext, hzero, hffp1, hfp1, htp1, ?_, ?_, ?_, ?_, ?_⟩
  · rw [halloc]
  · rw [halloc]
    unfold write_header
    simp only []
    rw [hnext]
  · rw [halloc]
    unfold write_header
    simp only []
    rw [hfp1]
    omega
  · intro a
    rw [halloc]
    unfold write_header
    simp only []
    rw [if_neg (by omega)]
    simp
  · intro k hk
    unfold free_page
    rw [if_pos hk]

/-- Witness for free_then_allocate at a concrete pager state. -/
theorem free_then_allocate_witness :
    (free_page ⟨fun _ _ => 0, 983259, 4096, 9, 1, 5⟩ 7).store 7 0 = 2 ∧
    rd32F ((free_page ⟨fun _ _ => 0, 983259, 4096, 9, 1, 5⟩ 7).store 7) 6 = 5 ∧
    (∀ a, a ≠ 0 → a < 6 ∨ 10 ≤ a →
      (free_page ⟨fun _ _ => 0, 983259, 4096, 9, 1, 5⟩ 7).store 7 a = 0) ∧
    (free_page ⟨fun _ _ => 0, 983259, 4096, 9, 1, 5⟩ 7).firstFreePage = 7 ∧
    (free_page ⟨fun _ _ => 0, 983259, 4096, 9, 1, 5⟩ 7).freePages = 1 + 1 ∧
    (free_page ⟨fun _ _ => 0, 983259, 4096, 9, 1, 5⟩ 7).totalPages = 9 ∧
    (get_unused_page_num (free_page ⟨fun _ _ => 0, 983259, 4096, 9, 1, 5⟩ 7)).1 =
      7 ∧
    (get_unused_page_num
      (free_page ⟨fun _ _ => 0, 983259, 4096, 9, 1, 5⟩ 7)).2.firstFreePage = 5 ∧
    (get_unused_page_num
      (free_page ⟨fun _ _ => 0, 983259, 4096, 9, 1, 5⟩ 7)).2.freePages = 1 ∧
    (∀ a, (get_unused_page_num
      (free_page ⟨fun _ _ => 0, 983259, 4096, 9, 1, 5⟩ 7)).2.store 7 a = 0) ∧
    (∀ k, k ≤ 1 → free_page ⟨fun _ _ => 0, 983259, 4096, 9, 1, 5⟩ k =
      ⟨fun _ _ => 0, 983259, 4096, 9, 1, 5⟩) :=
  free_then_allocate ⟨fun _ _ => 0, 983259, 4096, 9, 1, 5⟩ 7 (by omega) (by decide)

/-! ## Slotted leaf page at byte level, from LeafNode in src/src/node.cpp
and include/node.h.  A frame is a function from byte offset to byte; the
accessors read the 18-byte leaf header and the 4-byte slots exactly as
the C++ pointer casts do.  defragment copies each record into a scratch
buffer packed against the page tail in slot order (reading the slot
before rewriting its offset, as the loop does), copies the packed region
back and lowers data_end; the scratch buffer is uninitialised in C++ but
only the packed region is ever copied back, so zero-filling it in the
model is immaterial. -/

def leafNumCells (p : Nat → Nat) : Nat := rd32F p 6

def leafDataEnd (p : Nat → Nat) : Nat := rd16F p 10

def leafTotalFree (p : Nat → Nat) : Nat := rd16F p 12

def leafNextLeaf (p : Nat → Nat) : Nat := rd32F p 14

def slot_offset (p : Nat → Nat) (i : Nat) : Nat := rd16F p (18 + 4 * i)

def slot_length (p : Nat → Nat) (i : Nat) : Nat := rd16F p (20 + 4 * i)

/-- The len bytes at an offset, as a list. -/
def readBytesF (p : Nat → Nat) (off len : Nat) : List Nat :=
  (List.range len).map fun j => p (off + j)

/-- memcpy of len bytes from src at soff into dst at doff. -/
def copyBytesF (dst : Nat → Nat) (doff : Nat) (src : Nat → Nat)
    (soff len : Nat) : Nat → Nat :=
  fun a => if doff ≤ a ∧ a < doff + len then src (soff + (a - doff)) else dst a

/-- LeafNode::contiguous_free of src/src/node.cpp. -/
def contiguous_free (p : Nat → Nat) : Nat :=
  leafDataEnd p - (18 + 4 * leafNumCells p)

/-- LeafNode::can_fit of src/src/node.cpp. -/
def can_fit (p : Nat → Nat) (recSize : Nat) : Bool :=
  decide (recSize + 4 ≤ leafTotalFree p)

/-- The loop of LeafNode::defragment: for slot i read its length and
offset, pack the record at the running end of the scratch buffer, rewrite
the slot offset, continue with the next slot. -/
def defragGo (p tmp : Nat → Nat) (ne n i : Nat) :
    (Nat → Nat) × (Nat → Nat) × Nat :=
  if _h : i < n then
    defragGo (wr16F p (18 + 4 * i) (ne - slot_length p i))
      (copyBytesF tmp (ne - slot_length p i) p (slot_offset p i)
        (slot_length p i))
      (ne - slot_length p i) n (i + 1)
  else (p, tmp, ne)
termination_by n - i

/-- LeafNode::defragment of src/src/node.cpp: run the packing loop over
all slots, memcpy the packed region of the scratch buffer back over the
page tail, and lower data_end to the new end. -/
def defragment (p : Nat → Nat) : Nat → Nat :=
  if leafNumCells p = 0 then p
  else
    wr16F
      (copyBytesF (defragGo p (fun _ => 0) 4096 (leafNumCells p) 0).1
        (defragGo p (fun _ => 0) 4096 (leafNumCells p) 0).2.2
        (defragGo p (fun _ => 0) 4096 (leafNumCells p) 0).2.1
        (defragGo p (fun _ => 0) 4096 (leafNumCells p) 0).2.2
        (4096 - (defragGo p (fun _ => 0) 4096 (leafNumCells p) 0).2.2))
      10 (defragGo p (fun _ => 0) 4096 (leafNumCells p) 0).2.2

/-- Sum of the slot lengths of slots i to n - 1. -/
def sumLens (p : Nat → Nat) (i n : Nat) : Nat :=
  ((List.range (n - i)).map (fun t => slot_length p (i + t))).sum

theorem sumLens_of_le (p : Nat → Nat) (i n : Nat) (h : n ≤ i) :
    sumLens p i n = 0 := by
  unfold sumLens
  rw [show n - i = 0 from by omega]
  rfl

theorem sumLens_step (p : Nat → Nat) (i n : Nat) (h : i < n) :
    sumLens p i n = slot_length p i + sumLens p (i + 1) n := by
  unfold sumLens
  rw [show n - i = (n - (i + 1)) + 1 from by omega]
  rw [List.range_succ_eq_map]
  rw [List.map_cons, List.map_map, List.sum_cons]
  congr 1
  apply congrArg List.sum
  apply List.map_congr_left
  intro t _
  simp only [Function.comp_apply]
  congr 1
  omega

theorem sumLens_congr (p q : Nat → Nat) (i n : Nat)
    (h : ∀ j, i ≤ j → j < n → slot_length p j = slot_length q j) :
    sumLens p i n = sumLens q i n := by
  unfold sumLens
  congr 1
  apply List.map_congr_left
  intro t ht
  rw [List.mem_range] at ht
  exact h (i + t) (by omega) (by omega)

theorem sumLens_split (p : Nat → Nat) :
    ∀ d a c, a + d ≤ c → sumLens p a c = sumLens p a (a + d) + sumLens p (a + d) c := by
  intro d
  induction d with
  | zero =>
      intro a c _
      rw [Nat.add_zero, sumLens_of_le p a a (by omega)]
      omega
  | succ e ih =>
      intro a c hc
      rw [sumLens_step p a c (by omega)]
      rw [sumLens_step p a (a + (e + 1)) (by omega)]
      have := ih (a + 1) c (by omega)
      rw [show a + 1 + e = a + (e + 1) from by omega] at this
      omega

theorem readBytesF_congr (p q : Nat → Nat) (off len : Nat)
    (h : ∀ a, off ≤ a → a < off + len → p a = q a) :
    readBytesF p off len = readBytesF q off len := by
  unfold readBytesF
  apply List.map_congr_left
  intro j hj
  rw [List.mem_range] at hj
  exact h (off + j) (by omega) (by omega)

theorem copyBytesF_in (dst : Nat → Nat) (doff : Nat) (src : Nat → Nat)
    (soff len a : Nat) (h1 : doff ≤ a) (h2 : a < doff + len) :
    copyBytesF dst doff src soff len a = src (soff + (a - doff)) := by
  simp [copyBytesF, h1, h2]

theorem copyBytesF_out (dst : Nat → Nat) (doff : Nat) (src : Nat → Nat)
    (soff len a : Nat) (h : a < doff ∨ doff + len ≤ a) :
    copyBytesF dst doff src soff len a = dst a := by
  unfold copyBytesF
  rcases h with h | h
  · rw [if_neg (by omega)]
  · rw [if_neg (by omega)]

theorem slot_offset_congr (q p : Nat → Nat) (j : Nat)
    (h1 : q (18 + 4 * j) = p (18 + 4 * j))
    (h2 : q (18 + 4 * j + 1) = p (18 + 4 * j + 1)) :
    slot_offset q j = slot_offset p j := by
  unfold slot_offset rd16F
  rw [h1, h2]

theorem slot_length_congr (q p : Nat → Nat) (j : Nat)
    (h1 : q (20 + 4 * j) = p (20 + 4 * j))
    (h2 : q (20 + 4 * j + 1) = p (20 + 4 * j + 1)) :
    slot_length q j = slot_length p j := by
  unfold slot_length rd16F
  rw [h1, h2]

theorem slot_length_wr16F_off (p : Nat → Nat) (i v j : Nat) :
    slot_length (wr16F p (18 + 4 * i) v) j = slot_length p j := by
  unfold slot_length rd16F
  rw [wr16F_reads, wr16F_reads]
  rw [if_neg (by omega), if_neg (by omega), if_neg (by omega), if_neg (by omega)]

theorem slot_offset_wr16F_off (p : Nat → Nat) (i v j : Nat) (h : j ≠ i) :
    slot_offset (wr16F p (18 + 4 * i) v) j = slot_offset p j := by
  unfold slot_offset rd16F
  rw [wr16F_reads, wr16F_reads]
  rw [if_neg (by omega), if_neg (by omega), if_neg (by omega), if_neg (by omega)]

theorem slot_offset_wr16F_self (p : Nat → Nat) (i v : Nat) (hv : v < 65536) :
    slot_offset (wr16F p (18 + 4 * i) v) i = v :=
  rd16F_wr16F p (18 + 4 * i) v hv

/-- The loop invariant of defragment: processing slots i to n - 1 from
scratch position ne lowers the end by the lengths of those slots, writes
only their offset fields on the page, assigns each of them the packed
offset, preserves their lengths, copies each record unchanged into its
packed position of the scratch buffer, and leaves the scratch buffer
untouched at ne and above. -/
theorem defragGo_spec (p tmp : Nat → Nat) (ne n i : Nat) :
    ne ≤ 4096 →
    (∀ j, i ≤ j → j < n → 18 + 4 * n ≤ slot_offset p j ∧
      slot_offset p j + slot_length p j ≤ 4096) →
    sumLens p i n ≤ ne →
    (defragGo p tmp ne n i).2.2 = ne - sumLens p i n ∧
    (∀ a, (∀ j, i ≤ j → j < n → a ≠ 18 + 4 * j ∧ a ≠ 19 + 4 * j) →
      (defragGo p tmp ne n i).1 a = p a) ∧
    (∀ j, i ≤ j → j < n →
      slot_offset (defragGo p tmp ne n i).1 j = ne - sumLens p i (j + 1)) ∧
    (∀ j, i ≤ j → j < n →
      slot_length (defragGo p tmp ne n i).1 j = slot_length p j) ∧
    (∀ j, i ≤ j → j < n →
      readBytesF (defragGo p tmp ne n i).2.1 (ne - sumLens p i (j + 1))
        (slot_length p j) =
      readBytesF p (slot_offset p j) (slot_length p j)) ∧
    (∀ a, ne ≤ a → (defragGo p tmp ne n i).2.1 a = tmp a) := by
  induction p, tmp, ne, n, i using defragGo.induct with
  | case1 p tmp ne n i h ih =>
      intro hne hslots hsum
      have hstep : sumLens p i n = slot_length p i + sumLens p (i + 1) n :=
        sumLens_step p i n h
      have hlenpres : ∀ j, slot_length
          (wr16F p (18 + 4 * i) (ne - slot_length p i)) j = slot_length p j :=
        fun j => slot_length_wr16F_off p i _ j
      have hsumpres : ∀ a b, sumLens
          (wr16F p (18 + 4 * i) (ne - slot_length p i)) a b = sumLens p a b :=
        fun a b => sumLens_congr _ p a b (fun j _ _ => hlenpres j)
      have hoffpres : ∀ j, j ≠ i → slot_offset
          (wr16F p (18 + 4 * i) (ne - slot_length p i)) j = slot_offset p j :=
        fun j hj => slot_offset_wr16F_off p i _ j hj
      have IH := ih (by omega)
        (by
          intro j hj1 hj2
          rw [hoffpres j (by omega), hlenpres j]
          exact hslots j (by omega) hj2)
        (by
          rw [hsumpres]
          omega)
      obtain ⟨R1, R2, R3, R4, R5, R6⟩ := IH
      rw [defragGo, dif_pos h]
      refine ⟨?_, ?_, ?_, ?_, ?_, ?_⟩
      · rw [R1, hsumpres]
        omega
      · intro a ha
        rw [R2 a (fun j hj1 hj2 => ha j (by omega) hj2)]
        rw [wr16F_reads]
        have hai := ha i (by omega) h
        rw [if_neg (by omega), if_neg (by omega)]
      · intro j hj1 hj2
        by_cases hji : j = i
        · subst hji
          have hcong : slot_offset (defragGo
              (wr16F p (18 + 4 * j) (ne - slot_length p j))
              (copyBytesF tmp (ne - slot_length p j) p (slot_offset p j)
                (slot_length p j)) (ne - slot_length p j) n (j + 1)).1 j =
              slot_offset (wr16F p (18 + 4 * j) (ne - slot_length p j)) j :=
            slot_offset_congr _ _ j (R2 _ (fun j' hj1' hj2' => by omega))
              (R2 _ (fun j' hj1' hj2' => by omega))
          rw [hcong, slot_offset_wr16F_self p j _ (by omega)]
          rw [sumLens_step p j (j + 1) (by omega),
            sumLens_of_le p (j + 1) (j + 1) (by omega)]
          omega
        · have := R3 j (by omega) hj2
          rw [hsumpres] at this
          rw [this]
          rw [sumLens_step p i (j + 1) (by omega)]
          omega
      · intro j hj1 hj2
        have hcong : slot_length (defragGo
            (wr16F p (18 + 4 * i) (ne - slot_length p i))
            (copyBytesF tmp (ne - slot_length p i) p (slot_offset p i)
              (slot_length p i)) (ne - slot_length p i) n (i + 1)).1 j =
            slot_length (wr16F p (18 + 4 * i) (ne - slot_length p i)) j :=
          slot_length_congr _ _ j (R2 _ (fun j' hj1' hj2' => by omega))
            (R2 _ (fun j' hj1' hj2' => by omega))
        rw [hcong, hlenpres j]
      · intro j hj1 hj2
        by_cases hji : j = i
        · subst hji
          have hoffeq : ne - sumLens p j (j + 1) = ne - slot_length p j := by
            rw [sumLens_step p j (j + 1) (by omega),
              sumLens_of_le p (j + 1) (j + 1) (by omega)]
            omega
          rw [hoffeq]
          unfold readBytesF
          apply List.map_congr_left
          intro t ht
          rw [List.mem_range] at ht
          rw [R6 (ne - slot_length p j + t) (by omega)]
          rw [copyBytesF_in tmp (ne - slot_length p j) p (slot_offset p j)
            (slot_length p j) (ne - slot_length p j + t) (by omega) (by omega)]
          congr 1
          omega
        · have hR5 := R5 j (by omega) hj2
          rw [hsumpres, hlenpres, hoffpres j hji] at hR5
          have harith : ne - slot_length p i - sumLens p (i + 1) (j + 1) =
              ne - sumLens p i (j + 1) := by
            rw [sumLens_step p i (j + 1) (by omega)]
            omega
          rw [harith] at hR5
          rw [hR5]
          apply readBytesF_congr
          intro a ha1 ha2
          have hsl := hslots j (by omega) hj2
          rw [wr16F_reads]
          rw [if_neg (by omega), if_neg (by omega)]
      · intro a ha
        rw [R6 a (by omega)]
        rw [copyBytesF_out _ _ _ _ _ _ (by omega)]
  | case2 p tmp ne n i h =>
      intro hne hslots hsum
      rw [defragGo, dif_neg h]
      refine ⟨?_, ?_, ?_, ?_, ?_, ?_⟩
      · rw [sumLens_of_le p i n (by omega)]
        rfl
      · intro a _
        rfl
      · intro j hj1 hj2
        omega
      · intro j hj1 hj2
        omega
      · intro j hj1 hj2
        omega
      · intro a _
        rfl

theorem sumLens_eq_finset_sum (p : Nat → Nat) (n : Nat) :
    sumLens p 0 n = Finset.sum (Finset.range n) (fun j => slot_length p j) := by
  unfold sumLens
  rw [Nat.sub_zero]
  have hf : (fun t => slot_length p (0 + t)) = fun t => slot_length p t := by
    funext t
    rw [Nat.zero_add]
  rw [hf]
  induction n with
  | zero => rfl
  | succ m ih =>
      rw [List.range_succ, List.map_append, List.sum_append,
        Finset.sum_range_succ, ih]
      simp

/-- Pairwise disjoint records inside the region from data_end to the page
end have total length at most the region size. -/
theorem sumLens_le_region (p : Nat → Nat) (n dE : Nat) (hn : 1 ≤ n)
    (hslots : ∀ j, j < n → dE ≤ slot_offset p j ∧
      slot_offset p j + slot_length p j ≤ 4096)
    (hdisj : ∀ j k, j < k → k < n →
      slot_offset p j + slot_length p j ≤ slot_offset p k ∨
      slot_offset p k + slot_length p k ≤ slot_offset p j) :
    sumLens p 0 n + dE ≤ 4096 := by
  have hdE : dE ≤ 4096 := by
    have := hslots 0 (by omega)
    omega
  have hdisj2 : ∀ x ∈ Finset.range n, ∀ y ∈ Finset.range n, x ≠ y →
      Disjoint (Finset.Ico (slot_offset p x) (slot_offset p x + slot_length p x))
        (Finset.Ico (slot_offset p y) (slot_offset p y + slot_length p y)) := by
    intro x hx y hy hxy
    rw [Finset.mem_range] at hx hy
    rw [Finset.disjoint_left]
    intro a ha hb
    rw [Finset.mem_Ico] at ha hb
    rcases Nat.lt_or_ge x y with hlt | hge
    · rcases hdisj x y hlt hy with hc | hc <;> omega
    · have hlt : y < x := by omega
      rcases hdisj y x hlt hx with hc | hc <;> omega
  have hcard := Finset.card_biUnion hdisj2
  have hsub : (Finset.range n).biUnion (fun j =>
      Finset.Ico (slot_offset p j) (slot_offset p j + slot_length p j)) ⊆
      Finset.Ico dE 4096 := by
    intro a ha
    rw [Finset.mem_biUnion] at ha
    obtain ⟨j, hj, haj⟩ := ha
    rw [Finset.mem_range] at hj
    rw [Finset.mem_Ico] at haj ⊢
    have := hslots j hj
    omega
  have hle := Finset.card_le_card hsub
  rw [hcard] at hle
  rw [Nat.card_Ico] at hle
  have hcards : Finset.sum (Finset.range n) (fun j =>
      (Finset.Ico (slot_offset p j) (slot_offset p j + slot_length p j)).card) =
      Finset.sum (Finset.range n) (fun j => slot_length p j) := by
    apply Finset.sum_congr rfl
    intro j _
    rw [Nat.card_Ico]
    omega
  rw [hcards] at hle
  rw [sumLens_eq_finset_sum]
  omega

/-- The claim C10 amended: on a leaf with at least one cell satisfying
the slotted-page invariants, defragment preserves num_cells, total_free,
next_leaf and every record byte in the same slot order, packs data_end to
4096 minus the total record length, makes contiguous_free equal to
total_free, and therefore guarantees room for any record that can_fit
accepted.  (The num_cells = 0 early return is excluded: see the
counterexample.) -/
theorem defragment_preserves (p : Nat → Nat)
    (hcells : 1 ≤ leafNumCells p)
    (hD : 18 + 4 * leafNumCells p ≤ leafDataEnd p)
    (hslots : ∀ j, j < leafNumCells p → leafDataEnd p ≤ slot_offset p j ∧
      slot_offset p j + slot_length p j ≤ 4096)
    (hdisj : ∀ j k, j < k → k < leafNumCells p →
      slot_offset p j + slot_length p j ≤ slot_offset p k ∨
      slot_offset p k + slot_length p k ≤ slot_offset p j)
    (htf : leafTotalFree p +
      (sumLens p 0 (leafNumCells p) + 4 * leafNumCells p) = 4078) :
    leafNumCells (defragment p) = leafNumCells p ∧
    leafTotalFree (defragment p) = leafTotalFree p ∧
    leafNextLeaf (defragment p) = leafNextLeaf p ∧
    leafDataEnd (defragment p) = 4096 - sumLens p 0 (leafNumCells p) ∧
    (∀ j, j < leafNumCells p →
      slot_length (defragment p) j = slot_length p j) ∧
    (∀ j, j < leafNumCells p →
      readBytesF (defragment p) (slot_offset (defragment p) j)
        (slot_length (defragment p) j) =
      readBytesF p (slot_offset p j) (slot_length p j)) ∧
    contiguous_free (defragment p) = leafTotalFree (defragment p) ∧
    (∀ sz, can_fit p sz = true → sz + 4 ≤ contiguous_free (defragment p)) := by
  have hregion := sumLens_le_region p (leafNumCells p) (leafDataEnd p)
    hcells hslots hdisj
  obtain ⟨R1, R2, R3, R4, R5, R6⟩ := defragGo_spec p (fun _ => 0) 4096
    (leafNumCells p) 0 (by omega)
    (by
      intro j _ hj2
      have := hslots j hj2
      omega)
    (by omega)
  have hdef : defragment p =
      wr16F
        (copyBytesF (defragGo p (fun _ => 0) 4096 (leafNumCells p) 0).1
          (defragGo p (fun _ => 0) 4096 (leafNumCells p) 0).2.2
          (defragGo p (fun _ => 0) 4096 (leafNumCells p) 0).2.1
          (defragGo p (fun _ => 0) 4096 (leafNumCells p) 0).2.2
          (4096 - (defragGo p (fun _ => 0) 4096 (leafNumCells p) 0).2.2))
        10 (defragGo p (fun _ => 0) 4096 (leafNumCells p) 0).2.2 := by
    unfold defragment
    rw [if_neg (by omega)]
  have hnf : (defragGo p (fun _ => 0) 4096 (leafNumCells p) 0).2.2 =
      4096 - sumLens p 0 (leafNumCells p) := R1
  have hnfge : 18 + 4 * leafNumCells p ≤
      (defragGo p (fun _ => 0) 4096 (leafNumCells p) 0).2.2 := by
    rw [hnf]
    omega
  have hnfle : (defragGo p (fun _ => 0) 4096 (leafNumCells p) 0).2.2 ≤ 4096 := by
    rw [hnf]
    omega
  have hqr : ∀ a, a < (defragGo p (fun _ => 0) 4096 (leafNumCells p) 0).2.2 →
      a ≠ 10 → a ≠ 11 → defragment p a =
        (defragGo p (fun _ => 0) 4096 (leafNumCells p) 0).1 a := by
    intro a h1 h2 h3
    rw [hdef, wr16F_reads, if_neg (by omega), if_neg (by omega)]
    rw [copyBytesF_out _ _ _ _ _ _ (by omega)]
  have hqa : ∀ a, a < (defragGo p (fun _ => 0) 4096 (leafNumCells p) 0).2.2 →
      a ≠ 10 → a ≠ 11 →
      (∀ j', j' < leafNumCells p → a ≠ 18 + 4 * j' ∧ a ≠ 19 + 4 * j') →
      defragment p a = p a := by
    intro a h1 h2 h3 h4
    rw [hqr a h1 h2 h3]
    exact R2 a (fun j' hj1' hj2' => h4 j' hj2')
  have hqtmp : ∀ a, (defragGo p (fun _ => 0) 4096 (leafNumCells p) 0).2.2 ≤ a →
      a < 4096 → defragment p a =
        (defragGo p (fun _ => 0) 4096 (leafNumCells p) 0).2.1 a := by
    intro a h1 h2
    rw [hdef, wr16F_reads, if_neg (by omega), if_neg (by omega)]
    rw [copyBytesF_in _ _ _ _ _ _ h1 (by omega)]
    rw [Nat.add_sub_cancel' h1]
  have hnc : leafNumCells (defragment p) = leafNumCells p := by
    unfold leafNumCells rd32F
    rw [hqa 6 (by omega) (by omega) (by omega) (by intro j' _; omega),
      hqa 7 (by omega) (by omega) (by omega) (by intro j' _; omega),
      hqa 8 (by omega) (by omega) (by omega) (by intro j' _; omega),
      hqa 9 (by omega) (by omega) (by omega) (by intro j' _; omega)]
  have htfq : leafTotalFree (defragment p) = leafTotalFree p := by
    unfold leafTotalFree rd16F
    rw [hqa 12 (by omega) (by omega) (by omega) (by intro j' _; omega),
      hqa 13 (by omega) (by omega) (by omega) (by intro j' _; omega)]
  have hnl : leafNextLeaf (defragment p) = leafNextLeaf p := by
    unfold leafNextLeaf rd32F
    rw [hqa 14 (by omega) (by omega) (by omega) (by intro j' _; omega),
      hqa 15 (by omega) (by omega) (by omega) (by intro j' _; omega),
      hqa 16 (by omega) (by omega) (by omega) (by intro j' _; omega),
      hqa 17 (by omega) (by omega) (by omega) (by intro j' _; omega)]
  have hde : leafDataEnd (defragment p) =
      4096 - sumLens p 0 (leafNumCells p) := by
    rw [hdef]
    unfold leafDataEnd
    rw [rd16F_wr16F _ _ _ (by omega)]
    exact hnf
  have hsl : ∀ j, j < leafNumCells p →
      slot_length (defragment p) j = slot_length p j := by
    intro j hj
    have h1 := hqr (20 + 4 * j) (by omega) (by omega) (by omega)
    have h2 := hqr (20 + 4 * j + 1) (by omega) (by omega) (by omega)
    rw [slot_length_congr _ _ j h1 h2]
    exact R4 j (by omega) hj
  have hso : ∀ j, j < leafNumCells p →
      slot_offset (defragment p) j = 4096 - sumLens p 0 (j + 1) := by
    intro j hj
    have h1 := hqr (18 + 4 * j) (by omega) (by omega) (by omega)
    have h2 := hqr (18 + 4 * j + 1) (by omega) (by omega) (by omega)
    rw [slot_offset_congr _ _ j h1 h2]
    exact R3 j (by omega) hj
  have hsplitj : ∀ j, j < leafNumCells p →
      sumLens p 0 (leafNumCells p) =
        sumLens p 0 (j + 1) + sumLens p (j + 1) (leafNumCells p) := by
    intro j hj
    have := sumLens_split p (j + 1) 0 (leafNumCells p) (by omega)
    rw [Nat.zero_add] at this
    exact this
  have hsumj : ∀ j, j < leafNumCells p →
      sumLens p 0 (j + 1) = sumLens p 0 j + slot_length p j := by
    intro j hj
    have h1 := sumLens_split p j 0 (j + 1) (by omega)
    rw [Nat.zero_add] at h1
    rw [sumLens_step p j (j + 1) (by omega),
      sumLens_of_le p (j + 1) (j + 1) (by omega)] at h1
    omega
  have hrec : ∀ j, j < leafNumCells p →
      readBytesF (defragment p) (slot_offset (defragment p) j)
        (slot_length (defragment p) j) =
      readBytesF p (slot_offset p j) (slot_length p j) := by
    intro j hj
    rw [hsl j hj, hso j hj]
    have hsub1 : sumLens p 0 (j + 1) ≤ sumLens p 0 (leafNumCells p) := by
      have := hsplitj j hj
      omega
    have hlenb : sumLens p 0 j + slot_length p j ≤
        sumLens p 0 (leafNumCells p) := by
      have := hsumj j hj
      omega
    have hchain : readBytesF (defragment p) (4096 - sumLens p 0 (j + 1))
        (slot_length p j) =
        readBytesF (defragGo p (fun _ => 0) 4096 (leafNumCells p) 0).2.1
          (4096 - sumLens p 0 (j + 1)) (slot_length p j) := by
      apply readBytesF_congr
      intro a ha1 ha2
      apply hqtmp a (by rw [hnf]; omega)
      have := hsumj j hj
      omega
    rw [hchain]
    exact R5 j (by omega) hj
  have hcf : contiguous_free (defragment p) = leafTotalFree (defragment p) := by
    unfold contiguous_free
    rw [hde, hnc, htfq]
    omega
  refine ⟨hnc, htfq, hnl, hde, hsl, hrec, hcf, ?_⟩
  intro sz hfit
  unfold can_fit at hfit
  rw [decide_eq_true_iff] at hfit
  rw [hcf, htfq]
  omega

/-- A leaf page that once held records down to byte 100 and now has none:
num_cells = 0, data_end = 100, total_free = 4078, type LEAF. -/
def c10Page : Nat → Nat :=
  wr16F (wr16F (wr8F (fun _ => 0) 0 1) 10 100) 12 4078

/-- The claim C10 counterexample: the empty leaf satisfies every slotted
invariant (vacuously for its zero slots, and total_free = 4078 equals
4078 minus an empty sum), yet defragment returns it unchanged through the
num_cells = 0 early return, so contiguous_free stays at 82 instead of
total_free = 4078, and a record that can_fit accepts (size 293) still
finds no contiguous room after defragmenting. -/
theorem defragment_empty_leaf_cex :
    leafNumCells c10Page = 0 ∧
    leafDataEnd c10Page = 100 ∧
    leafTotalFree c10Page + (sumLens c10Page 0 0 + 4 * 0) = 4078 ∧
    defragment c10Page = c10Page ∧
    contiguous_free (defragment c10Page) = 82 ∧
    can_fit c10Page 293 = true ∧
    ¬ 293 + 4 ≤ contiguous_free (defragment c10Page) := by
  have hid : defragment c10Page = c10Page := by
    unfold defragment
    rw [if_pos (by decide)]
  refine ⟨by decide, by decide, by decide, hid, ?_, by decide, ?_⟩
  · rw [hid]
    decide
  · rw [hid]
    decide

/-- A well-formed leaf with two records of lengths 6 and 10 at offsets
4090 and 4080: num_cells = 2, data_end = 4080, total_free = 4054. -/
def c10Good : Nat → Nat :=
  wr16F (wr16F (wr16F (wr16F (wr16F (wr16F (wr32F
    (wr8F (fun _ => 0) 0 1) 6 2) 10 4080) 12 4054) 18 4090) 20 6) 22 4080) 24 10

/-- Witness for defragment_preserves: a leaf with two records of lengths
6 and 10 at offsets 4090 and 4080. -/
theorem defragment_preserves_witness :
    leafNumCells (defragment c10Good) = leafNumCells c10Good ∧
    leafTotalFree (defragment c10Good) = leafTotalFree c10Good ∧
    leafNextLeaf (defragment c10Good) = leafNextLeaf c10Good ∧
    leafDataEnd (defragment c10Good) =
      4096 - sumLens c10Good 0 (leafNumCells c10Good) ∧
    (∀ j, j < leafNumCells c10Good →
      slot_length (defragment c10Good) j = slot_length c10Good j) ∧
    (∀ j, j < leafNumCells c10Good →
      readBytesF (defragment c10Good) (slot_offset (defragment c10Good) j)
        (slot_length (defragment c10Good) j) =
      readBytesF c10Good (slot_offset c10Good j) (slot_length c10Good j)) ∧
    contiguous_free (defragment c10Good) = leafTotalFree (defragment c10Good) ∧
    (∀ sz, can_fit c10Good sz = true →
      sz + 4 ≤ contiguous_free (defragment c10Good)) :=
  defragment_preserves c10Good (by decide) (by decide) (by decide)
    (by
      intro j k hjk hk
      have hk2 : k < 2 := hk
      interval_cases k <;> interval_cases j <;> revert hjk <;> decide)
    (by decide)

/-! ## Tree-level model for lookup and range scan, from BTree::find,
BTree::range_scan and InternalNode::find_child in src/src/btree.cpp and
src/src/node.cpp.  A tree is a leaf holding (key, row) cells, or an
internal node holding (child, key) cells plus the rightmost child, as in
the internal page layout; page indirection through the pager is replaced
by direct subtrees.  The leaf chain that next_leaf threads through the
leaves equals, by the claim hypothesis, the left-to-right sequence of the
leaves of the tree, so following next_leaf from the leaf that find lands
on is walking the suffix of leavesOf from the index of that leaf. -/

mutual
inductive TreeM where
  | leaf (cells : List (Nat × Row))
  | internal (cells : CellsM) (rightChild : TreeM)
inductive CellsM where
  | nil
  | cons (child : TreeM) (key : Nat) (rest : CellsM)
end

mutual
/-- The leaves of a tree, in key order (left to right). -/
def leavesOf : TreeM → List (List (Nat × Row))
  | .leaf cells => [cells]
  | .internal cs rc => leavesOfCells cs ++ leavesOf rc

/-- The leaves below the children of an internal node cell list. -/
def leavesOfCells : CellsM → List (List (Nat × Row))
  | .nil => []
  | .cons c _ rest => leavesOf c ++ leavesOfCells rest
end

/-- The separator keys of an internal node, in cell order. -/
def keysOfCells : CellsM → List Nat
  | .nil => []
  | .cons _ k rest => k :: keysOfCells rest

/-- InternalNode::get_child on the model: cell i for i below num_keys,
right_child at num_keys. -/
def childAt : CellsM → TreeM → Nat → TreeM
  | .nil, rc, _ => rc
  | .cons c _ _, _, 0 => c
  | .cons _ _ rest, rc, i + 1 => childAt rest rc i

/-- The leaves below the first i children of an internal node. -/
def leadLeaves : CellsM → Nat → List (List (Nat × Row))
  | _, 0 => []
  | .nil, _ => []
  | .cons c _ rest, i + 1 => leavesOf c ++ leadLeaves rest i

theorem childAt_sizeOf : ∀ (cs : CellsM) (rc : TreeM) (i : Nat),
    sizeOf (childAt cs rc i) < 1 + sizeOf cs + sizeOf rc
  | .nil, rc, i => by
      rw [childAt]
      simp <;> omega
  | .cons c k rest, rc, 0 => by
      rw [childAt]
      simp <;> omega
  | .cons c k rest, rc, i + 1 => by
      rw [childAt]
      have := childAt_sizeOf rest rc i
      simp at this ⊢
      omega
termination_by cs _ _ => sizeOf cs
decreasing_by
  simp <;> omega

/-- BTree::find of src/src/btree.cpp on the model: descend through
find_child while the node is internal; the result is the index of the
reached leaf in the left-to-right leaf order. -/
def findLeafIdx (t : TreeM) (key : Nat) : Nat :=
  match t with
  | .leaf _ => 0
  | .internal cs rc =>
      (leadLeaves cs
        (bsearchGo (keysOfCells cs) key 0 (keysOfCells cs).length)).length +
      findLeafIdx
        (childAt cs rc (bsearchGo (keysOfCells cs) key 0 (keysOfCells cs).length))
        key
termination_by sizeOf t
decreasing_by
  have := childAt_sizeOf cs rc
    (bsearchGo (keysOfCells cs) key 0 (keysOfCells cs).length)
  simp
  omega

/-- The inner loop of BTree::range_scan over the cells of one leaf:
emitted rows, plus whether a key above hi ended the whole scan. -/
def scanLeaf (lo hi : Nat) : List (Nat × Row) → List (Nat × Row) × Bool
  | [] => ([], false)
  | c :: rest =>
      if hi < c.1 then ([], true)
      else
        if lo ≤ c.1 then
          (c :: (scanLeaf lo hi rest).1, (scanLeaf lo hi rest).2)
        else scanLeaf lo hi rest

/-- The outer loop of BTree::range_scan along the next_leaf chain. -/
def scanChain (lo hi : Nat) : List (List (Nat × Row)) → List (Nat × Row)
  | [] => []
  | l :: rest =>
      if (scanLeaf lo hi l).2 then (scanLeaf lo hi l).1
      else (scanLeaf lo hi l).1 ++ scanChain lo hi rest

/-- BTree::range_scan of src/src/btree.cpp on the model: find the start
leaf for lo, then walk the leaf chain from it. -/
def range_scan (t : TreeM) (lo hi : Nat) : List (Nat × Row) :=
  scanChain lo hi ((leavesOf t).drop (findLeafIdx t lo))

/-- Lower bound check for a key, none meaning unbounded. -/
def inLB : Option Nat → Nat → Bool
  | none, _ => true
  | some b, k => decide (b ≤ k)

/-- Strict upper bound check for a key, none meaning unbounded. -/
def inUB : Option Nat → Nat → Bool
  | none, _ => true
  | some b, k => decide (k < b)

/-- Strictly ascending with a strict lower bound. -/
def ascFromB : Nat → List Nat → Bool
  | _, [] => true
  | prev, k :: rest => decide (prev < k) && ascFromB k rest

/-- Strictly ascending key list. -/
def sortedB : List Nat → Bool
  | [] => true
  | k :: rest => ascFromB k rest

mutual
/-- The ordering and routing invariant of the claim: leaf keys sorted and
inside the node interval, internal keys sorted, and each child routed to
the interval its separators delimit (keys in child i lie in the half-open
interval from key i-1 inclusive to key i exclusive, matching the
equality-routes-right search and the separator being the smallest key of
the right sibling). -/
def invB : Option Nat → Option Nat → TreeM → Bool
  | lb, ub, .leaf cells =>
      sortedB (cells.map Prod.fst) &&
      (cells.map Prod.fst).all (fun k => inLB lb k && inUB ub k)
  | lb, ub, .internal cs rc =>
      sortedB (keysOfCells cs) && invCells lb ub cs rc
termination_by lb ub t => sizeOf t
decreasing_by
  all_goals simp <;> omega

/-- The routing invariant over the cells of an internal node, tracking
the running lower bound: each separator key lies in the node interval,
the child before it holds keys below it, and the remaining cells use it
as their lower bound. -/
def invCells : Option Nat → Option Nat → CellsM → TreeM → Bool
  | lb, ub, .nil, rc => invB lb ub rc
  | lb, ub, .cons c k rest, rc =>
      inLB lb k && inUB ub k && invB lb (some k) c &&
        invCells (some k) ub rest rc
termination_by lb ub cs rc => sizeOf cs + sizeOf rc
decreasing_by
  all_goals simp <;> omega
end

/-- The keys stored in a leaf chain, in order. -/
def chainKeys (chain : List (List (Nat × Row))) : List Nat :=
  chain.flatten.map Prod.fst

/-- The keys stored below a tree, in order. -/
def leafKeys (t : TreeM) : List Nat := chainKeys (leavesOf t)

theorem chainKeys_append (a b : List (List (Nat × Row))) :
    chainKeys (a ++ b) = chainKeys a ++ chainKeys b := by
  simp [chainKeys]

theorem ascFromB_iff (l : List Nat) : ∀ a : Nat,
    (ascFromB a l = true ↔ List.Chain (· < ·) a l) := by
  induction l with
  | nil =>
      intro a
      simp [ascFromB]
  | cons k rest ih =>
      intro a
      rw [ascFromB, Bool.and_eq_true, decide_eq_true_iff, ih k]
      constructor
      · rintro ⟨h1, h2⟩
        exact List.Chain.cons h1 h2
      · intro h
        cases h with
        | cons h1 h2 => exact ⟨h1, h2⟩

theorem sortedB_iff (l : List Nat) :
    sortedB l = true ↔ List.Pairwise (· < ·) l := by
  cases l with
  | nil => simp [sortedB]
  | cons k rest =>
      rw [sortedB, ascFromB_iff]
      constructor
      · intro h
        exact List.chain'_iff_pairwise.mp h
      · intro h
        exact List.chain'_iff_pairwise.mpr h

mutual
theorem invB_bounds : ∀ (lb ub : Option Nat) (t : TreeM),
    invB lb ub t = true →
    ∀ k ∈ leafKeys t, inLB lb k = true ∧ inUB ub k = true
  | lb, ub, .leaf cells => by
      intro hinv k hk
      rw [invB, Bool.and_eq_true] at hinv
      have h2 := hinv.2
      rw [List.all_eq_true] at h2
      have hk2 : k ∈ cells.map Prod.fst := by
        simpa [leafKeys, chainKeys, leavesOf] using hk
      have := h2 k hk2
      rwa [Bool.and_eq_true] at this
  | lb, ub, .internal cs rc => by
      intro hinv k hk
      rw [invB, Bool.and_eq_true] at hinv
      exact invCells_bounds lb ub cs rc hinv.2 k
        (by simpa [leafKeys, leavesOf] using hk)
termination_by lb ub t => sizeOf t
decreasing_by
  all_goals simp <;> omega

theorem invCells_bounds : ∀ (lb ub : Option Nat) (cs : CellsM) (rc : TreeM),
    invCells lb ub cs rc = true →
    ∀ k ∈ chainKeys (leavesOfCells cs ++ leavesOf rc),
      inLB lb k = true ∧ inUB ub k = true
  | lb, ub, .nil, rc => by
      intro hinv k hk
      rw [invCells] at hinv
      exact invB_bounds lb ub rc hinv k
        (by simpa [chainKeys, leavesOfCells, leafKeys] using hk)
  | lb, ub, .cons c kk rest, rc => by
      intro hinv k hk
      rw [invCells, Bool.and_eq_true, Bool.and_eq_true, Bool.and_eq_true] at hinv
      obtain ⟨⟨⟨hklb, hkub⟩, hchild⟩, hrest⟩ := hinv
      have hsplit : k ∈ leafKeys c ∨
          k ∈ chainKeys (leavesOfCells rest ++ leavesOf rc) := by
        rw [leavesOfCells, List.append_assoc, chainKeys_append] at hk
        rw [List.mem_append] at hk
        rcases hk with hk | hk
        · exact Or.inl hk
        · exact Or.inr hk
      rcases hsplit with hk2 | hk2
      · have hb := invB_bounds lb (some kk) c hchild k hk2
        refine ⟨hb.1, ?_⟩
        have hlt : k < kk := by
          have := hb.2
          rwa [inUB, decide_eq_true_iff] at this
        cases ub with
        | none => rfl
        | some b =>
            rw [inUB, decide_eq_true_iff] at hkub ⊢
            omega
      · have hb := invCells_bounds (some kk) ub rest rc hrest k hk2
        refine ⟨?_, hb.2⟩
        have hge : kk ≤ k := by
          have := hb.1
          rwa [inLB, decide_eq_true_iff] at this
        cases lb with
        | none => rfl
        | some b =>
            rw [inLB, decide_eq_true_iff] at hklb ⊢
            omega
termination_by lb ub cs rc => sizeOf cs + sizeOf rc
decreasing_by
  all_goals simp <;> omega
end

mutual
theorem invB_sorted : ∀ (lb ub : Option Nat) (t : TreeM),
    invB lb ub t = true → List.Pairwise (· < ·) (leafKeys t)
  | lb, ub, .leaf cells => by
      intro hinv
      rw [invB, Bool.and_eq_true] at hinv
      have := (sortedB_iff _).mp hinv.1
      simpa [leafKeys, chainKeys, leavesOf] using this
  | lb, ub, .internal cs rc => by
      intro hinv
      rw [invB, Bool.and_eq_true] at hinv
      have := invCells_sorted lb ub cs rc hinv.2
      simpa [leafKeys, leavesOf] using this
termination_by lb ub t => sizeOf t
decreasing_by
  all_goals simp <;> omega

theorem invCells_sorted : ∀ (lb ub : Option Nat) (cs : CellsM) (rc : TreeM),
    invCells lb ub cs rc = true →
    List.Pairwise (· < ·) (chainKeys (leavesOfCells cs ++ leavesOf rc))
  | lb, ub, .nil, rc => by
      intro hinv
      rw [invCells] at hinv
      have := invB_sorted lb ub rc hinv
      simpa [chainKeys, leavesOfCells, leafKeys] using this
  | lb, ub, .cons c kk rest, rc => by
      intro hinv
      rw [invCells, Bool.and_eq_true, Bool.and_eq_true, Bool.and_eq_true] at hinv
      obtain ⟨⟨⟨hklb, hkub⟩, hchild⟩, hrest⟩ := hinv
      rw [leavesOfCells, List.append_assoc, chainKeys_append]
      rw [List.pairwise_append]
      refine ⟨invB_sorted lb (some kk) c hchild,
        invCells_sorted (some kk) ub rest rc hrest, ?_⟩
      intro a ha b hb
      have hua := (invB_bounds lb (some kk) c hchild a ha).2
      have hlb := (invCells_bounds (some kk) ub rest rc hrest b hb).1
      rw [inUB, decide_eq_true_iff] at hua
      rw [inLB, decide_eq_true_iff] at hlb
      omega
termination_by lb ub cs rc => sizeOf cs + sizeOf rc
decreasing_by
  all_goals simp <;> omega
end

theorem bsearchGo_le (keys : List Nat) (key : Nat) :
    ∀ lo hi, lo ≤ hi → bsearchGo keys key lo hi ≤ hi := by
  intro lo hi
  induction lo, hi using bsearchGo.induct keys key with
  | case1 lo hi h hle ih =>
      intro _
      rw [bsearchGo, dif_pos h, if_pos hle]
      exact ih (by omega)
  | case2 lo hi h hgt ih =>
      intro _
      rw [bsearchGo, dif_pos h, if_neg hgt]
      have := ih (by omega)
      omega
  | case3 lo hi h =>
      intro hle
      rw [bsearchGo, dif_neg h]
      exact hle

theorem chain_decomp : ∀ (cs : CellsM) (rc : TreeM) (i : Nat),
    ∃ rest, leavesOfCells cs ++ leavesOf rc =
      leadLeaves cs i ++ (leavesOf (childAt cs rc i) ++ rest)
  | .nil, rc, i => by
      refine ⟨[], ?_⟩
      cases i with
      | zero => simp [leavesOfCells, leadLeaves, childAt]
      | succ j => simp [leavesOfCells, leadLeaves, childAt]
  | .cons c k rest', rc, 0 => by
      refine ⟨leavesOfCells rest' ++ leavesOf rc, ?_⟩
      simp [leavesOfCells, leadLeaves, childAt, List.append_assoc]
  | .cons c k rest', rc, i + 1 => by
      obtain ⟨r, hr⟩ := chain_decomp rest' rc i
      refine ⟨r, ?_⟩
      rw [leavesOfCells, leadLeaves, childAt]
      rw [List.append_assoc, hr, List.append_assoc]

theorem findLeafIdx_lt : ∀ (t : TreeM) (key : Nat),
    findLeafIdx t key < (leavesOf t).length
  | .leaf cells, key => by
      rw [findLeafIdx]
      simp [leavesOf]
  | .internal cs rc, key => by
      rw [findLeafIdx]
      obtain ⟨r, hr⟩ := chain_decomp cs rc
        (bsearchGo (keysOfCells cs) key 0 (keysOfCells cs).length)
      have hsub := findLeafIdx_lt
        (childAt cs rc (bsearchGo (keysOfCells cs) key 0 (keysOfCells cs).length))
        key
      rw [leavesOf, hr]
      simp only [List.length_append]
      omega
termination_by t _ => sizeOf t
decreasing_by
  have := childAt_sizeOf cs rc
    (bsearchGo (keysOfCells cs) key 0 (keysOfCells cs).length)
  simp
  omega

theorem invCells_childInv : ∀ (lb ub : Option Nat) (cs : CellsM) (rc : TreeM)
    (i : Nat), invCells lb ub cs rc = true →
    ∃ lb2 ub2, invB lb2 ub2 (childAt cs rc i) = true
  | lb, ub, .nil, rc, i => by
      intro hinv
      rw [invCells] at hinv
      cases i with
      | zero => exact ⟨lb, ub, by rw [childAt]; exact hinv⟩
      | succ j => exact ⟨lb, ub, by rw [childAt]; exact hinv⟩
  | lb, ub, .cons c k rest, rc, 0 => by
      intro hinv
      rw [invCells, Bool.and_eq_true, Bool.and_eq_true, Bool.and_eq_true] at hinv
      exact ⟨lb, some k, by rw [childAt]; exact hinv.1.2⟩
  | lb, ub, .cons c k rest, rc, i + 1 => by
      intro hinv
      rw [invCells, Bool.and_eq_true, Bool.and_eq_true, Bool.and_eq_true] at hinv
      have := invCells_childInv (some k) ub rest rc i hinv.2
      rw [childAt]
      exact this

theorem leadLeaves_keys_lt : ∀ (lb ub : Option Nat) (cs : CellsM) (rc : TreeM)
    (lo i : Nat), invCells lb ub cs rc = true →
    (∀ j, j < i → j < (keysOfCells cs).length → (keysOfCells cs).getD j 0 ≤ lo) →
    ∀ k ∈ chainKeys (leadLeaves cs i), k < lo
  | lb, ub, cs, rc, lo, 0 => by
      intro _ _ k hk
      cases cs with
      | nil => simp [leadLeaves, chainKeys] at hk
      | cons c kk rest => simp [leadLeaves, chainKeys] at hk
  | lb, ub, .nil, rc, lo, i + 1 => by
      intro _ _ k hk
      simp [leadLeaves, chainKeys] at hk
  | lb, ub, .cons c kk rest, rc, lo, i + 1 => by
      intro hinv hle k hk
      rw [invCells, Bool.and_eq_true, Bool.and_eq_true, Bool.and_eq_true] at hinv
      obtain ⟨⟨⟨hklb, hkub⟩, hchild⟩, hrest⟩ := hinv
      rw [leadLeaves, chainKeys_append, List.mem_append] at hk
      rcases hk with hk | hk
      · have hb := (invB_bounds lb (some kk) c hchild k hk).2
        rw [inUB, decide_eq_true_iff] at hb
        have hkk : kk ≤ lo := by
          have := hle 0 (by omega) (by rw [keysOfCells]; simp)
          simpa [keysOfCells] using this
        omega
      · refine leadLeaves_keys_lt (some kk) ub rest rc lo i hrest ?_ k hk
        intro j hj1 hj2
        have := hle (j + 1) (by omega) (by rw [keysOfCells]; simpa using hj2)
        simpa [keysOfCells] using this

/-- Landing lemma for find: every key stored in a leaf strictly before
the leaf that find reaches for lo is strictly below lo. -/
theorem findLeafIdx_keys_lt : ∀ (t : TreeM) (lb ub : Option Nat) (lo : Nat),
    invB lb ub t = true →
    ∀ k ∈ chainKeys ((leavesOf t).take (findLeafIdx t lo)), k < lo
  | .leaf cells, lb, ub, lo => by
      intro _ k hk
      rw [findLeafIdx] at hk
      simp [chainKeys] at hk
  | .internal cs rc, lb, ub, lo => by
      intro hinv k hk
      rw [invB, Bool.and_eq_true] at hinv
      obtain ⟨hsort, hcells⟩ := hinv
      have hPW : List.Pairwise (· < ·) (keysOfCells cs) := (sortedB_iff _).mp hsort
      have hspec := bsearchGo_spec (keysOfCells cs) lo hPW
      obtain ⟨r, hr⟩ := chain_decomp cs rc
        (bsearchGo (keysOfCells cs) lo 0 (keysOfCells cs).length)
      have hsubLt := findLeafIdx_lt
        (childAt cs rc (bsearchGo (keysOfCells cs) lo 0 (keysOfCells cs).length)) lo
      rw [findLeafIdx, leavesOf, hr] at hk
      rw [List.take_append] at hk
      rw [List.take_append_of_le_length (by omega)] at hk
      rw [chainKeys_append, List.mem_append] at hk
      rcases hk with hk | hk
      · exact leadLeaves_keys_lt lb ub cs rc lo _ hcells
          (fun j hj1 hj2 => hspec.2.1 j hj1) k hk
      · obtain ⟨lb2, ub2, hchildinv⟩ := invCells_childInv lb ub cs rc
          (bsearchGo (keysOfCells cs) lo 0 (keysOfCells cs).length) hcells
        exact findLeafIdx_keys_lt
          (childAt cs rc (bsearchGo (keysOfCells cs) lo 0 (keysOfCells cs).length))
          lb2 ub2 lo hchildinv k hk
termination_by t _ _ _ => sizeOf t
decreasing_by
  have := childAt_sizeOf cs rc
    (bsearchGo (keysOfCells cs) lo 0 (keysOfCells cs).length)
  simp
  omega

theorem scanLeaf_spec (lo hi : Nat) : ∀ cells : List (Nat × Row),
    List.Pairwise (· < ·) (cells.map Prod.fst) →
    (scanLeaf lo hi cells).1 =
      cells.filter (fun c => decide (lo ≤ c.1) && decide (c.1 ≤ hi)) ∧
    ((scanLeaf lo hi cells).2 = true ↔ ∃ c ∈ cells, hi < c.1) := by
  intro cells
  induction cells with
  | nil =>
      intro _
      refine ⟨rfl, ?_⟩
      simp [scanLeaf]
  | cons c rest ih =>
      intro hpw
      rw [List.map_cons, List.pairwise_cons] at hpw
      obtain ⟨hcross, htail⟩ := hpw
      obtain ⟨ih1, ih2⟩ := ih htail
      rw [scanLeaf]
      by_cases h1 : hi < c.1
      · rw [if_pos h1]
        refine ⟨?_, ?_⟩
        · rw [List.filter_cons, if_neg (by simp; omega)]
          have hnil : rest.filter
              (fun c => decide (lo ≤ c.1) && decide (c.1 ≤ hi)) = [] := by
            rw [List.filter_eq_nil_iff]
            intro b hb
            have hbk : c.1 < b.1 := hcross b.1 (List.mem_map_of_mem Prod.fst hb)
            simp
            omega
          rw [hnil]
        · constructor
          · intro _
            exact ⟨c, List.mem_cons_self _ _, h1⟩
          · intro _
            rfl
      · rw [if_neg h1]
        have hiff : ((scanLeaf lo hi rest).2 = true ↔
            ∃ x ∈ c :: rest, hi < x.1) := by
          rw [ih2]
          constructor
          · rintro ⟨a, ha, hgt⟩
            exact ⟨a, List.mem_cons_of_mem _ ha, hgt⟩
          · rintro ⟨a, ha, hgt⟩
            rcases List.mem_cons.mp ha with he | hm
            · rw [he] at hgt
              exact absurd hgt h1
            · exact ⟨a, hm, hgt⟩
        by_cases h2 : lo ≤ c.1
        · rw [if_pos h2]
          refine ⟨?_, hiff⟩
          rw [List.filter_cons, if_pos (by simp; omega), ih1]
        · rw [if_neg h2]
          refine ⟨?_, hiff⟩
          rw [List.filter_cons, if_neg (by simp; omega), ih1]

theorem scanChain_spec (lo hi : Nat) : ∀ chain : List (List (Nat × Row)),
    List.Pairwise (· < ·) (chainKeys chain) →
    scanChain lo hi chain =
      chain.flatten.filter (fun c => decide (lo ≤ c.1) && decide (c.1 ≤ hi)) := by
  intro chain
  induction chain with
  | nil =>
      intro _
      rfl
  | cons l rest ih =>
      intro hpw
      have hck : chainKeys (l :: rest) = l.map Prod.fst ++ chainKeys rest := by
        simp [chainKeys]
      rw [hck, List.pairwise_append] at hpw
      obtain ⟨hP1, hP2, hcross⟩ := hpw
      obtain ⟨hl1, hl2⟩ := scanLeaf_spec lo hi l hP1
      rw [scanChain, List.flatten_cons, List.filter_append]
      by_cases hs : (scanLeaf lo hi l).2 = true
      · rw [if_pos hs, hl1]
        obtain ⟨c, hc, hchi⟩ := hl2.mp hs
        have hnil : rest.flatten.filter
            (fun c => decide (lo ≤ c.1) && decide (c.1 ≤ hi)) = [] := by
          rw [List.filter_eq_nil_iff]
          intro b hb
          have hbmem : b.1 ∈ chainKeys rest := by
            rw [chainKeys]
            exact List.mem_map_of_mem Prod.fst hb
          have hbig : c.1 < b.1 :=
            hcross c.1 (List.mem_map_of_mem Prod.fst hc) b.1 hbmem
          simp
          omega
        rw [hnil, List.append_nil]
      · rw [if_neg hs, hl1, ih hP2]

/-- The claim C3 property: on a tree satisfying the ordering and routing
invariant, range_scan emits exactly the stored rows whose key lies
between lo and hi inclusive, in ascending key order, each exactly once
(the keys of the output are strictly increasing). -/
theorem range_scan_correct (t : TreeM) (lo hi : Nat)
    (hinv : invB none none t = true) (hlohi : lo ≤ hi) :
    range_scan t lo hi = (leavesOf t).flatten.filter
      (fun c => decide (lo ≤ c.1) && decide (c.1 ≤ hi)) ∧
    List.Pairwise (· < ·) ((range_scan t lo hi).map Prod.fst) := by
  have hsorted : List.Pairwise (· < ·) (chainKeys (leavesOf t)) :=
    invB_sorted none none t hinv
  have hdecomp : leavesOf t = (leavesOf t).take (findLeafIdx t lo) ++
      (leavesOf t).drop (findLeafIdx t lo) := (List.take_append_drop _ _).symm
  have hsplit : List.Pairwise (· < ·)
      (chainKeys ((leavesOf t).take (findLeafIdx t lo)) ++
        chainKeys ((leavesOf t).drop (findLeafIdx t lo))) := by
    rw [← chainKeys_append, ← hdecomp]
    exact hsorted
  have hPW2 := (List.pairwise_append.mp hsplit).2.1
  have hscan := scanChain_spec lo hi ((leavesOf t).drop (findLeafIdx t lo)) hPW2
  have hpre : ((leavesOf t).take (findLeafIdx t lo)).flatten.filter
      (fun c => decide (lo ≤ c.1) && decide (c.1 ≤ hi)) = [] := by
    rw [List.filter_eq_nil_iff]
    intro c hc
    have hck : c.1 ∈ chainKeys ((leavesOf t).take (findLeafIdx t lo)) :=
      List.mem_map_of_mem Prod.fst hc
    have := findLeafIdx_keys_lt t none none lo hinv c.1 hck
    simp
    omega
  constructor
  · rw [range_scan, hscan]
    conv_rhs => rw [hdecomp]
    rw [List.flatten_append, List.filter_append, hpre, List.nil_append]
  · rw [range_scan, hscan]
    refine List.Pairwise.sublist ?_ hPW2
    exact List.Sublist.map Prod.fst (List.filter_sublist _)

/-- A two-leaf tree with separator 3, the smallest key of the right leaf. -/
def c3Tree : TreeM :=
  .internal (.cons (.leaf [(1, ⟨1, [], []⟩), (2, ⟨2, [], []⟩)]) 3 .nil)
    (.leaf [(3, ⟨3, [], []⟩), (5, ⟨5, [], []⟩)])

/-- Witness for range_scan_correct on the two-leaf tree with lo = 2 and
hi = 3, an interval that spans the leaf boundary. -/
theorem range_scan_correct_witness :
    range_scan c3Tree 2 3 = (leavesOf c3Tree).flatten.filter
      (fun c => decide (2 ≤ c.1) && decide (c.1 ≤ 3)) ∧
    List.Pairwise (· < ·) ((range_scan c3Tree 2 3).map Prod.fst) :=
  range_scan_correct c3Tree 2 3
    (by
      rw [c3Tree, invB, invCells, invB, invCells, invB]
      decide)
    (by omega)

end ForgeDB
